import Mathlib

/-!
Shallow embedding of the Stage-2 scoring engine (`lib/filter_stage2.py`,
function `score_metadata`) and of the calibration machinery of
`lib/calibrate.py` (`spearman_rank_correlation`, `evaluate_params`, and the
grid-search selection loop of `main`).  The `spearman_rank_correlation` in
`lib/benchmark_scoring.py` is textually identical to the one in
`lib/calibrate.py`, so a single embedding covers both.

Modelling conventions:
* Python floats are modelled as exact real numbers (`ℝ`) in the one place
  `math.sqrt` occurs, and as exact rationals (`ℚ`) everywhere else;
  `round(x, 1)` becomes `(round (10 * x) : ℤ) / 10`.  Where the exact
  idealization visibly diverges from IEEE-754 binary64 at the granularity
  of a claim — the category-boost end-to-end scenario, where the double
  sum `0.65 + 1.0` ties down to a value below `1.65` — the double
  semantics is modelled explicitly by `fpRound` (round to nearest,
  ties-to-even, 53-bit significand) and the divergence is proved.
* Python dicts with optional keys become structures with `Option` fields;
  `metadata.get(k) or default` becomes `Option.getD`.
* The insertion-ordered dict `keyword_groups` becomes an association list.
* The free-text `reasons` trace strings become an inductive `Reason` with
  one constructor per `reasons.append` site, carrying the data that the
  corresponding f-string interpolates, so trace membership is statable
  without having to model float formatting.
* Python's substring test `a in b` on strings is modelled by the executable
  character-list search `strIn`.
-/

/-- Characterwise test that the first list is a leading segment of the
second (`true` for the empty pattern). -/
def leadEq : List Char → List Char → Bool
  | [], _ => true
  | _ :: _, [] => false
  | a :: as, b :: bs => a == b && leadEq as bs

/-- Substring search on character lists: `inChars needle hay` is `true`
iff `needle` occurs contiguously in `hay` (Python's `needle in hay`). -/
def inChars (needle : List Char) : List Char → Bool
  | [] => leadEq needle []
  | c :: t => leadEq needle (c :: t) || inChars needle t

/-- Python's substring containment `needle in hay` on strings. -/
def strIn (needle hay : String) : Bool :=
  inChars needle.data hay.data

/-- ASCII lowering of one character. -/
def charLower (c : Char) : Char :=
  if 65 ≤ c.toNat ∧ c.toNat ≤ 90 then Char.ofNat (c.toNat + 32) else c

/-- Python's `str.lower()`; the repository's keywords, titles and tags are
ASCII, so ASCII lowering is used. -/
def strLower (s : String) : String :=
  ⟨s.data.map charLower⟩

/-- The tunable scoring constants (`SCORING_PARAMS` keys in
`lib/filter_stage2.py`). -/
structure ScoringParams where
  kw_max : ℚ
  kw_scale : ℚ
  depth_max : ℚ
  ch_factor_none : ℚ
  ch_factor_mid : ℚ
  social_max : ℚ
  short_cap_under2 : ℚ
  short_cap_2to3 : ℚ

/-- The built-in default parameter set `SCORING_PARAMS` of
`lib/filter_stage2.py`. -/
def SCORING_PARAMS : ScoringParams :=
  ⟨4.5, 2.2, 2.5, 0.65, 0.5, 0.75, 3.5, 5.0⟩

/-- yt-dlp metadata record: every field the scoring engine reads is
optional (`metadata.get(...)`). -/
structure Metadata where
  title : Option String
  description : Option String
  tags : Option (List String)
  duration : Option ℤ
  chapters : Option (List String)
  view_count : Option ℕ
  like_count : Option ℕ

/-- Stage-1 candidate record; `score_metadata` reads only
`channel_category` from it. -/
structure Candidate where
  video_id : String
  title : String
  channel_category : Option String

/-- One keyword group of `keywords.yaml`: a signed weight and an ordered
keyword list. -/
structure KwGroup where
  weight : ℚ
  keywords : List String

/-- `title = (metadata.get("title") or "").lower()`. -/
def Metadata.titleText (m : Metadata) : String :=
  strLower (m.title.getD "")

/-- `tags = [t.lower() for t in (metadata.get("tags") or [])]`. -/
def Metadata.tagList (m : Metadata) : List String :=
  (m.tags.getD []).map strLower

/-- `tags_text = " ".join(tags)`. -/
def Metadata.tagsText (m : Metadata) : String :=
  String.intercalate " " m.tagList

/-- `description = (metadata.get("description") or "").lower()`. -/
def Metadata.descText (m : Metadata) : String :=
  strLower (m.description.getD "")

/-- `duration = metadata.get("duration", 0) or 0`. -/
def Metadata.durationVal (m : Metadata) : ℤ :=
  m.duration.getD 0

/-- `chapter_count = len(chapters) if chapters else 0`. -/
def Metadata.chapterCount (m : Metadata) : ℕ :=
  (m.chapters.getD []).length

/-- `view_count = metadata.get("view_count") or 0`. -/
def Metadata.views (m : Metadata) : ℕ :=
  m.view_count.getD 0

/-- `like_count = metadata.get("like_count") or 0`. -/
def Metadata.likes (m : Metadata) : ℕ :=
  m.like_count.getD 0

/-- Constructors mirror the `reasons.append(...)` sites of
`score_metadata`, in source order, carrying the interpolated data (the
`kw_raw` entry records the raw keyword score; the scaled value the
f-string also prints is `keywordScore params raw`, determined by it). -/
inductive Reason where
  | neg (kw : String)
  | kw_title (group kw : String)
  | kw_tag (group kw : String)
  | kw_desc (group kw : String)
  | kw_raw (raw : ℚ)
  | depth (value : ℚ) (dur : ℤ) (ch : ℕ)
  | primary_channel
  | social (value : ℚ) (v l : ℕ)
  | short_cap (cap : ℚ) (dur : ℤ)
deriving DecidableEq

/-- `_is_substring_of_matched(kw, matched_list)`:
`any(kw in m for m in matched_list if kw != m)`. -/
def is_substring_of_matched (kw : String) (matched : List String) : Bool :=
  matched.any (fun m => kw != m && strIn kw m)

/-- Mutable state of the keyword-relevance loop of `score_metadata`:
accumulated raw score, accumulated negative penalty, the three
location-scoped matched-keyword lists, and the trace so far. -/
structure KwState where
  raw : ℚ
  neg_penalty : ℚ
  matched_in_title : List String
  matched_in_tags : List String
  matched_in_desc : List String
  reasons : List Reason
deriving DecidableEq

/-- One iteration of the inner keyword loop for a non-suppression group
(the `else` branch of the group loop in `score_metadata`). -/
def procKw (group_name : String) (weight : ℚ) (title tags_text description : String)
    (st : KwState) (kw : String) : KwState :=
  let kwL := strLower kw
  let hitT := strIn kwL title && !is_substring_of_matched kwL st.matched_in_title
  let raw1 := if hitT then st.raw + weight * 1 else st.raw
  let rs1 := if hitT then st.reasons ++ [Reason.kw_title group_name kw] else st.reasons
  let mT := if hitT then st.matched_in_title ++ [kwL] else st.matched_in_title
  let m1 := hitT
  let hitG := strIn kwL tags_text && !is_substring_of_matched kwL st.matched_in_tags
  let raw2 := if hitG then raw1 + weight * 0.5 else raw1
  let rs2 := if hitG && !m1 then rs1 ++ [Reason.kw_tag group_name kw] else rs1
  let mG := if hitG then st.matched_in_tags ++ [kwL] else st.matched_in_tags
  let m2 := m1 || hitG
  let hitD := strIn kwL description && !is_substring_of_matched kwL st.matched_in_desc
  let raw3 := if hitD then raw2 + weight * 0.3 else raw2
  let rs3 := if hitD && !m2 then rs2 ++ [Reason.kw_desc group_name kw] else rs2
  let mD := if hitD then st.matched_in_desc ++ [kwL] else st.matched_in_desc
  ⟨raw3, st.neg_penalty, mT, mG, mD, rs3⟩

/-- One iteration of the outer group loop of `score_metadata`: suppression
groups scan for the first keyword contained in the combined text and add a
flat `2.0` penalty; other groups run the keyword loop. -/
def procGroup (title tags_text description combined : String) (st : KwState)
    (g : String × KwGroup) : KwState :=
  if g.2.weight < 0 then
    match g.2.keywords.find? (fun kw => strIn (strLower kw) combined) with
    | some kw =>
        { st with neg_penalty := st.neg_penalty + 2,
                  reasons := st.reasons ++ [Reason.neg kw] }
    | none => st
  else
    g.2.keywords.foldl (procKw g.1 g.2.weight title tags_text description) st

/-- The whole keyword-relevance loop (`for group_name, group in
keyword_groups.items()`), with the combined text
`f"{title} {tags_text} {description}"`. -/
def kwScan (keyword_groups : List (String × KwGroup))
    (title tags_text description : String) : KwState :=
  keyword_groups.foldl
    (procGroup title tags_text description
      (title ++ " " ++ tags_text ++ " " ++ description))
    ⟨0, 0, [], [], [], []⟩

/-- The keyword-loop state computed by `score_metadata` for a given
metadata record and taxonomy. -/
def kwStateOf (m : Metadata) (keyword_groups : List (String × KwGroup)) : KwState :=
  kwScan keyword_groups m.titleText m.tagsText m.descText

/-- `keyword_score = min(params["kw_max"], params["kw_scale"] * math.sqrt(raw_kw_score))`. -/
noncomputable def keywordScore (p : ScoringParams) (raw : ℚ) : ℝ :=
  min (p.kw_max : ℝ) ((p.kw_scale : ℝ) * Real.sqrt (raw : ℝ))

/-- The duration factor of the content-depth component. -/
def durationFactor (duration : ℤ) : ℚ :=
  if 1800 ≤ duration then 1
  else if 600 ≤ duration then 0.4 + 0.6 * (((duration - 600 : ℤ) : ℚ) / 1200)
  else if 120 ≤ duration then 0.2 + 0.2 * (((duration - 120 : ℤ) : ℚ) / 480)
  else 0

/-- The chapter factor of the content-depth component. -/
def chapterFactor (p : ScoringParams) (chapter_count : ℕ) : ℚ :=
  if 5 ≤ chapter_count then 1
  else if 3 ≤ chapter_count then p.ch_factor_mid
  else p.ch_factor_none

/-- `depth_score = params["depth_max"] * duration_factor * chapter_factor`. -/
def depthScore (p : ScoringParams) (m : Metadata) : ℚ :=
  p.depth_max * durationFactor m.durationVal * chapterFactor p m.chapterCount

/-- Channel authority component: `1.0` iff `channel_category == "primary"`. -/
def authorityScore (c : Candidate) : ℚ :=
  if c.channel_category = some "primary" then 1 else 0

/-- The graduated view-count tiers of the social-proof component. -/
def viewPts (view_count : ℕ) : ℚ :=
  if 100000 ≤ view_count then 0.6
  else if 25000 ≤ view_count then 0.4
  else if 5000 ≤ view_count then 0.2
  else if 500 ≤ view_count then 0.1
  else 0

/-- The like/view engagement bonus; the `view_count > 0` guard keeps the
ratio's denominator nonzero. -/
def engagementPts (view_count like_count : ℕ) : ℚ :=
  if 0 < view_count ∧ 0.04 < (like_count : ℚ) / (view_count : ℚ) then 0.4
  else if 0 < view_count ∧ 0.02 < (like_count : ℚ) / (view_count : ℚ) then 0.2
  else 0

/-- `social_score = min(params["social_max"], view_pts + engagement_pts)`. -/
def socialScore (p : ScoringParams) (view_count like_count : ℕ) : ℚ :=
  min p.social_max (viewPts view_count + engagementPts view_count like_count)

/-- The short-form cap: `short_cap_under2` below 120 s, `short_cap_2to3`
below 180 s, none otherwise. -/
def shortCapOf (p : ScoringParams) (duration : ℤ) : Option ℚ :=
  if duration < 120 then some p.short_cap_under2
  else if duration < 180 then some p.short_cap_2to3
  else none

/-- `subtotal = keyword_score + depth_score + authority_score + social_score`. -/
noncomputable def subtotalOf (c : Candidate) (m : Metadata)
    (kg : List (String × KwGroup)) (p : ScoringParams) : ℝ :=
  keywordScore p (kwStateOf m kg).raw + (depthScore p m : ℝ)
    + (authorityScore c : ℝ) + (socialScore p m.views m.likes : ℝ)

/-- `if short_cap is not None: subtotal = min(subtotal, short_cap)`. -/
noncomputable def cappedSubtotal (c : Candidate) (m : Metadata)
    (kg : List (String × KwGroup)) (p : ScoringParams) : ℝ :=
  match shortCapOf p m.durationVal with
  | some cap => min (subtotalOf c m kg p) (cap : ℝ)
  | none => subtotalOf c m kg p

/-- `total = subtotal - neg_penalty` (penalty applied after the cap). -/
noncomputable def totalPreClamp (c : Candidate) (m : Metadata)
    (kg : List (String × KwGroup)) (p : ScoringParams) : ℝ :=
  cappedSubtotal c m kg p - ((kwStateOf m kg).neg_penalty : ℝ)

/-- `normalized = max(0.0, min(10.0, total))`. -/
noncomputable def normalizedScore (c : Candidate) (m : Metadata)
    (kg : List (String × KwGroup)) (p : ScoringParams) : ℝ :=
  max 0 (min 10 (totalPreClamp c m kg p))

/-- `round(x, 1)` on an exact value. -/
noncomputable def roundTenth (x : ℝ) : ℚ :=
  ((round (10 * x) : ℤ) : ℚ) / 10

/-- The trace assembled by `score_metadata`, in source append order. -/
noncomputable def reasonsOf (c : Candidate) (m : Metadata)
    (kg : List (String × KwGroup)) (p : ScoringParams) : List Reason :=
  let st := kwStateOf m kg
  st.reasons
    ++ (if 0 < keywordScore p st.raw then [Reason.kw_raw st.raw] else [])
    ++ [Reason.depth (depthScore p m) m.durationVal m.chapterCount]
    ++ (if c.channel_category = some "primary" then [Reason.primary_channel] else [])
    ++ (if 0 < socialScore p m.views m.likes then
          [Reason.social (socialScore p m.views m.likes) m.views m.likes] else [])
    ++ (match shortCapOf p m.durationVal with
        | some cap => [Reason.short_cap cap m.durationVal]
        | none => [])

/-- `score_metadata(candidate, metadata, keyword_groups, params)` of
`lib/filter_stage2.py`: the rounded clamped score and the trace. -/
noncomputable def score_metadata (candidate : Candidate) (metadata : Metadata)
    (keyword_groups : List (String × KwGroup)) (params : ScoringParams) :
    ℚ × List Reason :=
  (roundTenth (normalizedScore candidate metadata keyword_groups params),
   reasonsOf candidate metadata keyword_groups params)

/-- `sorted(range(n), key=lambda i: vals[i])` inside `rank`, kept as
index-value pairs (sorting `vals.enum` by value is sorting the indices by
`vals[i]`; tie order is irrelevant because tied indices receive the same
averaged rank). -/
def sortedPairs {α : Type*} [LinearOrder α] (vals : List α) : List (ℕ × α) :=
  List.insertionSort (fun a b => a.2 ≤ b.2) vals.enum

/-- The tie-averaging assignment loop of `rank` inside
`spearman_rank_correlation`: walk the sorted list; a maximal run of equal
values occupying positions `p .. p+m-1` yields the averaged rank
`(p + (p+m-1))/2 + 1` for each of its indices. -/
def assignRanks {α : Type*} [LinearOrder α] : ℕ → List (ℕ × α) → List (ℕ × ℚ)
  | _, [] => []
  | p, q :: rest =>
    let run := q :: rest.takeWhile (fun r => decide (r.2 = q.2))
    let avg : ℚ := ((p + (p + run.length - 1) : ℕ) : ℚ) / 2 + 1
    run.map (fun r => (r.1, avg)) ++
      assignRanks (p + run.length) (rest.dropWhile (fun r => decide (r.2 = q.2)))
termination_by _ l => l.length
decreasing_by
  exact Nat.lt_succ_of_le ((List.dropWhile_sublist _).length_le)

/-- `rank(vals)`: the list of averaged ranks, indexed by original
position. -/
def rankList {α : Type*} [LinearOrder α] (vals : List α) : List ℚ :=
  (List.range vals.length).map
    (fun i => ((assignRanks 0 (sortedPairs vals)).lookup i).getD 0)

/-- `spearman_rank_correlation(x, y)` of `lib/calibrate.py` (identical
copy in `lib/benchmark_scoring.py`): `0` for `n < 2`, otherwise
`1 - 6*d_sq/(n*(n*n-1))` over averaged ranks. -/
def spearman_rank_correlation {α : Type*} [LinearOrder α] (x y : List α) : ℚ :=
  let n := x.length
  if n < 2 then 0
  else
    let rx := rankList x
    let ry := rankList y
    let d_sq : ℚ :=
      ((List.range n).map (fun i => (rx.getD i 0 - ry.getD i 0) ^ 2)).sum
    1 - 6 * d_sq / ((n : ℚ) * ((n : ℚ) * (n : ℚ) - 1))

/-- `THRESHOLD = 6` of `lib/calibrate.py`. -/
def THRESHOLD : ℚ := 6

/-- One entry of `REFERENCE_VIDEOS`. -/
structure RefVideo where
  video_id : String
  claude_score : ℚ
  expected : String

/-- One labelled benchmark entry as assembled by `main` of
`lib/calibrate.py`: `(ref, (metadata, candidate))`. -/
structure LabeledVideo where
  ref : RefVideo
  metadata : Metadata
  candidate : Candidate

/-- `predicted_pass = "PASS" if score >= THRESHOLD else "FAIL"`. -/
noncomputable def predictedLabel (params : ScoringParams)
    (kg : List (String × KwGroup)) (v : LabeledVideo) : String :=
  if THRESHOLD ≤ (score_metadata v.candidate v.metadata kg params).1
  then "PASS" else "FAIL"

/-- The summary statistics returned by `evaluate_params`. -/
structure EvalResult where
  mae : ℚ
  spearman : ℚ
  correct : ℕ
  scores : List ℚ

/-- `evaluate_params(params, videos, keyword_groups)`: scores every
labelled video and reduces to `(mae, spearman, correct, scores)`.  For the
empty labelled list the source divides by `len(scores) == 0` and raises
`ZeroDivisionError`; that abnormal outcome is modelled as `none`. -/
noncomputable def evaluate_params (params : ScoringParams)
    (videos : List LabeledVideo) (kg : List (String × KwGroup)) :
    Option EvalResult :=
  let scores := videos.map (fun v => (score_metadata v.candidate v.metadata kg params).1)
  let claude := videos.map (fun v => v.ref.claude_score)
  let correct := videos.countP (fun v => decide (predictedLabel params kg v = v.ref.expected))
  if scores.length = 0 then none
  else
    some ⟨((claude.zip scores).map (fun q => |q.1 - q.2|)).sum / (scores.length : ℚ),
          spearman_rank_correlation claude scores, correct, scores⟩

/-- The running optimum of the grid search (`best_params`, `best_mae`,
`best_spearman`, `best_scores`). -/
structure BestRec where
  params : ScoringParams
  mae : ℚ
  spearman : ℚ
  scores : List ℚ

/-- One iteration of the grid-search loop of `main` in `lib/calibrate.py`:
skip combinations failing the hard accuracy constraint, update the
optimum on strictly smaller MAE or on an exact MAE tie with strictly
larger Spearman.  `none` models the initial
`best_mae = inf, best_params = None` state (the first surviving
combination always beats `inf`).  A `none` evaluation (possible only for
the empty labelled set, where the source raises before this loop runs) is
skipped. -/
noncomputable def calibStep (videos : List LabeledVideo)
    (kg : List (String × KwGroup)) (best : Option BestRec)
    (params : ScoringParams) : Option BestRec :=
  match evaluate_params params videos kg with
  | none => best
  | some e =>
    if e.correct < videos.length then best
    else
      match best with
      | none => some ⟨params, e.mae, e.spearman, e.scores⟩
      | some b =>
        if e.mae < b.mae ∨ (e.mae = b.mae ∧ b.spearman < e.spearman) then
          some ⟨params, e.mae, e.spearman, e.scores⟩
        else best

/-- The grid-search selection loop of `main` over an enumeration of
parameter combinations (`for combo in itertools.product(*param_values)`);
a final `none` corresponds to the explicit
`ERROR: No parameter combination achieves 10/10 pass/fail` + `sys.exit(1)`
outcome. -/
noncomputable def calibrate_grid_search (combos : List ScoringParams)
    (videos : List LabeledVideo) (kg : List (String × KwGroup)) :
    Option BestRec :=
  combos.foldl (calibStep videos kg) none


/-! ### Helper lemmas about the keyword loop state -/

lemma procKw_neg_penalty (gn : String) (w : ℚ) (t g d : String) (st : KwState)
    (kw : String) : (procKw gn w t g d st kw).neg_penalty = st.neg_penalty := rfl

lemma foldl_procKw_neg_penalty (gn : String) (w : ℚ) (t g d : String) :
    ∀ (kws : List String) (st : KwState),
      (kws.foldl (procKw gn w t g d) st).neg_penalty = st.neg_penalty
  | [], _ => rfl
  | kw :: kws, st => by
      rw [List.foldl_cons, foldl_procKw_neg_penalty gn w t g d kws,
        procKw_neg_penalty]

lemma procGroup_neg_penalty_le (t g d cmb : String) (st : KwState)
    (grp : String × KwGroup) :
    st.neg_penalty ≤ (procGroup t g d cmb st grp).neg_penalty := by
  unfold procGroup
  split_ifs with hw
  · cases hfind : grp.2.keywords.find? (fun kw => strIn (strLower kw) cmb) with
    | none => simp
    | some kw => simp
  · rw [foldl_procKw_neg_penalty]

lemma foldl_procGroup_neg_penalty_le (t g d cmb : String) :
    ∀ (kgs : List (String × KwGroup)) (st : KwState),
      st.neg_penalty ≤ (kgs.foldl (procGroup t g d cmb) st).neg_penalty
  | [], _ => le_refl _
  | grp :: kgs, st =>
      le_trans (procGroup_neg_penalty_le t g d cmb st grp)
        (foldl_procGroup_neg_penalty_le t g d cmb kgs _)

lemma kwStateOf_neg_penalty_nonneg (m : Metadata) (kg : List (String × KwGroup)) :
    0 ≤ (kwStateOf m kg).neg_penalty := by
  unfold kwStateOf kwScan
  exact foldl_procGroup_neg_penalty_le _ _ _ _ kg ⟨0, 0, [], [], [], []⟩

/-! ### Helper lemmas about rounding to one decimal place -/

lemma round_le_round_of_le {x y : ℝ} (h : x ≤ y) : round x ≤ round y := by
  rw [round_eq, round_eq]
  exact Int.floor_le_floor (by linarith)

lemma roundTenth_mono {x y : ℝ} (h : x ≤ y) : roundTenth x ≤ roundTenth y := by
  unfold roundTenth
  have hr : round ((10:ℝ) * x) ≤ round ((10:ℝ) * y) :=
    round_le_round_of_le (by linarith)
  have hq : ((round ((10:ℝ) * x) : ℤ) : ℚ) ≤ ((round ((10:ℝ) * y) : ℤ) : ℚ) := by
    exact_mod_cast hr
  exact (div_le_div_right (by norm_num)).2 hq

lemma roundTenth_zero : roundTenth 0 = 0 := by
  unfold roundTenth
  norm_num

lemma roundTenth_nonneg {x : ℝ} (h : 0 ≤ x) : 0 ≤ roundTenth x := by
  have := roundTenth_mono h
  rwa [roundTenth_zero] at this

lemma roundTenth_le_of_le {x : ℝ} {k : ℤ} (h : x ≤ (k:ℝ)/10) :
    roundTenth x ≤ (k:ℚ)/10 := by
  unfold roundTenth
  have h2 : round ((10:ℝ) * x) ≤ k := by
    have := round_le_round_of_le (show (10:ℝ) * x ≤ ((k:ℤ):ℝ) by linarith)
    rwa [round_intCast] at this
  have hq : ((round ((10:ℝ) * x) : ℤ) : ℚ) ≤ (k:ℚ) := by exact_mod_cast h2
  exact (div_le_div_right (by norm_num)).2 hq

lemma roundTenth_add_one (x : ℝ) : roundTenth (x + 1) = roundTenth x + 1 := by
  unfold roundTenth
  have h : (10:ℝ) * (x + 1) = 10 * x + ((10:ℤ):ℝ) := by push_cast; ring
  rw [h, round_add_int]
  push_cast
  ring

/-- C1: for every candidate, metadata record, keyword taxonomy and
parameter set, the score returned by `score_metadata` satisfies
`0 ≤ score ≤ 10`: the final `max(0.0, min(10.0, total))` clamp composed
with one-decimal rounding keeps every output — including adversarial
suppression-only, minimal-duration inputs — inside the range. -/
theorem score_metadata_clamp_invariant (c : Candidate) (m : Metadata)
    (kg : List (String × KwGroup)) (p : ScoringParams) :
    0 ≤ (score_metadata c m kg p).1 ∧ (score_metadata c m kg p).1 ≤ 10 := by
  have hlb : (0:ℝ) ≤ normalizedScore c m kg p := by
    unfold normalizedScore
    exact le_max_left _ _
  have hub : normalizedScore c m kg p ≤ ((100:ℤ):ℝ)/10 := by
    unfold normalizedScore
    have h1 : min (10:ℝ) (totalPreClamp c m kg p) ≤ 10 := min_le_left _ _
    have h2 : max (0:ℝ) (min 10 (totalPreClamp c m kg p)) ≤ 10 :=
      max_le (by norm_num) h1
    push_cast
    linarith
  constructor
  · exact roundTenth_nonneg hlb
  · have h := roundTenth_le_of_le hub
    norm_num at h
    exact h

/-- Metadata with every absent optional field replaced by the neutral
default the source falls back to (`or ""`, `or []`, `or 0`). -/
def normalizeMetadata (m : Metadata) : Metadata :=
  ⟨some (m.title.getD ""), some (m.description.getD ""), some (m.tags.getD []),
   some (m.duration.getD 0), some (m.chapters.getD []), some (m.view_count.getD 0),
   some (m.like_count.getD 0)⟩

/-- C3: `score_metadata` is total on records with missing optional fields
(the embedding is a total function); every absent field contributes
exactly as its neutral default, and the like/view engagement bonus is `0`
whenever `view_count = 0` (the `view_count > 0` guard short-circuits the
ratio), so the division is never reached. -/
theorem score_metadata_total_missing_fields :
    (∀ (c : Candidate) (m : Metadata) (kg : List (String × KwGroup))
        (p : ScoringParams),
        score_metadata c m kg p = score_metadata c (normalizeMetadata m) kg p)
    ∧ (∀ like_count : ℕ, engagementPts 0 like_count = 0) := by
  constructor
  · intro c m kg p
    rfl
  · intro l
    simp [engagementPts]

/-- Metadata with only view/like counts set, as in the C7 scenario. -/
def viewsMeta (v : ℕ) : Metadata :=
  ⟨none, none, none, none, none, some v, some 20⟩

/-- A candidate from a non-primary channel. -/
def candSec : Candidate := ⟨"vid", "t", some "secondary"⟩

/-- C7 counterexample: raising `view_count` from 499 to 500 with
`like_count = 20` fixed drops the like/view ratio from just above `0.04`
to exactly `0.04`, demoting the engagement bonus from `0.4` to `0.2`
while the view tier only adds `0.1` — the social contribution (and the
final score) strictly decreases. -/
theorem social_view_monotone_counterexample :
    socialScore SCORING_PARAMS 500 20 < socialScore SCORING_PARAMS 499 20
    ∧ (score_metadata candSec (viewsMeta 500) [] SCORING_PARAMS).1
        < (score_metadata candSec (viewsMeta 499) [] SCORING_PARAMS).1 := by
  have hns : (some "secondary" = some "primary") = False := eq_false (by decide)
  constructor
  · norm_num [socialScore, viewPts, engagementPts, SCORING_PARAMS, min_def]
  · have h500 : (score_metadata candSec (viewsMeta 500) [] SCORING_PARAMS).1 = 0.3 := by
      simp only [score_metadata, normalizedScore, totalPreClamp, cappedSubtotal,
        subtotalOf, kwStateOf, kwScan, shortCapOf, depthScore, socialScore,
        authorityScore, viewPts, engagementPts, durationFactor, chapterFactor,
        keywordScore, roundTenth, Metadata.durationVal, Metadata.views,
        Metadata.likes, Metadata.chapterCount, Metadata.titleText,
        Metadata.tagsText, Metadata.descText, Metadata.tagList, viewsMeta, candSec,
        SCORING_PARAMS, List.foldl, Option.getD_some, Option.getD_none, hns, if_false]
      norm_num [Real.sqrt_zero, round_eq, min_def, max_def]
    have h499 : (score_metadata candSec (viewsMeta 499) [] SCORING_PARAMS).1 = 0.4 := by
      simp only [score_metadata, normalizedScore, totalPreClamp, cappedSubtotal,
        subtotalOf, kwStateOf, kwScan, shortCapOf, depthScore, socialScore,
        authorityScore, viewPts, engagementPts, durationFactor, chapterFactor,
        keywordScore, roundTenth, Metadata.durationVal, Metadata.views,
        Metadata.likes, Metadata.chapterCount, Metadata.titleText,
        Metadata.tagsText, Metadata.descText, Metadata.tagList, viewsMeta, candSec,
        SCORING_PARAMS, List.foldl, Option.getD_some, Option.getD_none, hns, if_false]
      norm_num [Real.sqrt_zero, round_eq, min_def, max_def]
    rw [h500, h499]
    norm_num

lemma engagementPts_zero_likes (v : ℕ) : engagementPts v 0 = 0 := by
  norm_num [engagementPts]

/-- C7 amended: the view-tier points are monotone nondecreasing in
`view_count`, and so is the full social-proof contribution whenever the
engagement bonus cannot move (e.g. `like_count = 0`); the unrestricted
claim fails because a larger `view_count` can lower the like/view ratio
across an engagement threshold. -/
theorem viewPts_social_monotone (p : ScoringParams) :
    (∀ v1 v2 : ℕ, v1 ≤ v2 → viewPts v1 ≤ viewPts v2)
    ∧ (∀ v1 v2 : ℕ, v1 ≤ v2 → socialScore p v1 0 ≤ socialScore p v2 0) := by
  have hmono : ∀ v1 v2 : ℕ, v1 ≤ v2 → viewPts v1 ≤ viewPts v2 := by
    intro v1 v2 h
    unfold viewPts
    split_ifs <;> first | omega | norm_num
  refine ⟨hmono, fun v1 v2 h => ?_⟩
  unfold socialScore
  rw [engagementPts_zero_likes, engagementPts_zero_likes]
  exact min_le_min (le_refl _) (add_le_add (hmono v1 v2 h) (le_refl 0))

/-- Witness for `viewPts_social_monotone` at the 499 to 500 tier
boundary. -/
theorem viewPts_social_monotone_witness :
    (499:ℕ) ≤ 500 ∧ viewPts 499 ≤ viewPts 500
    ∧ socialScore SCORING_PARAMS 499 0 ≤ socialScore SCORING_PARAMS 500 0 :=
  ⟨by norm_num, (viewPts_social_monotone SCORING_PARAMS).1 499 500 (by norm_num),
   (viewPts_social_monotone SCORING_PARAMS).2 499 500 (by norm_num)⟩

/-- C10: `evaluate_params` on the empty labelled list hits the unguarded
division by `len(scores) == 0` (modelled as the `none` outcome), while on
every non-empty labelled list it returns the summary statistics with one
score per labelled item. -/
theorem evaluate_params_defined_iff_nonempty :
    (∀ (p : ScoringParams) (kg : List (String × KwGroup)),
        evaluate_params p [] kg = none)
    ∧ (∀ (p : ScoringParams) (videos : List LabeledVideo)
          (kg : List (String × KwGroup)), videos ≠ [] →
        ∃ e : EvalResult, evaluate_params p videos kg = some e
          ∧ e.scores.length = videos.length) := by
  constructor
  · intro p kg
    rfl
  · intro p videos kg hv
    simp only [evaluate_params, List.length_map]
    rw [if_neg (by simpa [List.length_eq_zero] using hv)]
    exact ⟨_, rfl, by simp⟩

/-- A concrete labelled video for witnesses. -/
def labeledV0 : LabeledVideo :=
  ⟨⟨"id0", 3, "FAIL"⟩, ⟨none, none, none, none, none, none, none⟩,
   ⟨"id0", "t", none⟩⟩

/-- Witness for `evaluate_params_defined_iff_nonempty` on a singleton
labelled list. -/
theorem evaluate_params_defined_iff_nonempty_witness :
    ([labeledV0] : List LabeledVideo) ≠ []
    ∧ ∃ e : EvalResult, evaluate_params SCORING_PARAMS [labeledV0] [] = some e
        ∧ e.scores.length = 1 := by
  refine ⟨by simp, ?_⟩
  have h := evaluate_params_defined_iff_nonempty.2 SCORING_PARAMS [labeledV0] [] (by simp)
  simpa using h

/-! ### The keyword loop emits no short-form-cap trace entry -/

lemma procKw_no_short_cap (gn : String) (w : ℚ) (t g d : String) (st : KwState)
    (kw : String) (cap : ℚ) (dur : ℤ)
    (h : Reason.short_cap cap dur ∉ st.reasons) :
    Reason.short_cap cap dur ∉ (procKw gn w t g d st kw).reasons := by
  simp only [procKw]
  split_ifs <;> simp_all [List.mem_append]

lemma foldl_procKw_no_short_cap (gn : String) (w : ℚ) (t g d : String)
    (cap : ℚ) (dur : ℤ) :
    ∀ (kws : List String) (st : KwState),
      Reason.short_cap cap dur ∉ st.reasons →
      Reason.short_cap cap dur ∉ (kws.foldl (procKw gn w t g d) st).reasons
  | [], _, h => h
  | kw :: kws, st, h =>
      foldl_procKw_no_short_cap gn w t g d cap dur kws _
        (procKw_no_short_cap gn w t g d st kw cap dur h)

lemma procGroup_no_short_cap (t g d cmb : String) (st : KwState)
    (grp : String × KwGroup) (cap : ℚ) (dur : ℤ)
    (h : Reason.short_cap cap dur ∉ st.reasons) :
    Reason.short_cap cap dur ∉ (procGroup t g d cmb st grp).reasons := by
  unfold procGroup
  split_ifs with hw
  · cases hfind : grp.2.keywords.find? (fun kw => strIn (strLower kw) cmb) with
    | none => simpa using h
    | some kw => simp_all [List.mem_append]
  · exact foldl_procKw_no_short_cap _ _ _ _ _ cap dur _ st h

lemma foldl_procGroup_no_short_cap (t g d cmb : String) (cap : ℚ) (dur : ℤ) :
    ∀ (kgs : List (String × KwGroup)) (st : KwState),
      Reason.short_cap cap dur ∉ st.reasons →
      Reason.short_cap cap dur ∉ (kgs.foldl (procGroup t g d cmb) st).reasons
  | [], _, h => h
  | grp :: kgs, st, h =>
      foldl_procGroup_no_short_cap t g d cmb cap dur kgs _
        (procGroup_no_short_cap t g d cmb st grp cap dur h)

lemma kwStateOf_no_short_cap (m : Metadata) (kg : List (String × KwGroup))
    (cap : ℚ) (dur : ℤ) :
    Reason.short_cap cap dur ∉ (kwStateOf m kg).reasons := by
  unfold kwStateOf kwScan
  exact foldl_procGroup_no_short_cap _ _ _ _ cap dur kg ⟨0, 0, [], [], [], []⟩
    (by simp)

/-! ### The short-form cap in the assembled score and trace -/

lemma short_cap_reason_mem (c : Candidate) (m : Metadata)
    (kg : List (String × KwGroup)) (p : ScoringParams) (cap : ℚ)
    (h : shortCapOf p m.durationVal = some cap) :
    Reason.short_cap cap m.durationVal ∈ (score_metadata c m kg p).2 := by
  show _ ∈ reasonsOf c m kg p
  unfold reasonsOf
  rw [h]
  simp [List.mem_append]

lemma no_short_cap_reason (c : Candidate) (m : Metadata)
    (kg : List (String × KwGroup)) (p : ScoringParams)
    (h : shortCapOf p m.durationVal = none) (cap : ℚ) (dur : ℤ) :
    Reason.short_cap cap dur ∉ (score_metadata c m kg p).2 := by
  show _ ∉ reasonsOf c m kg p
  unfold reasonsOf
  rw [h]
  intro hmem
  simp only [List.mem_append, List.append_nil] at hmem
  rcases hmem with ((((h1 | h2) | h3) | h4) | h5)
  · exact kwStateOf_no_short_cap m kg cap dur h1
  · split at h2 <;> simp_all
  · simp_all
  · split at h4 <;> simp_all
  · split at h5 <;> simp_all

lemma score_le_short_cap (c : Candidate) (m : Metadata)
    (kg : List (String × KwGroup)) (p : ScoringParams) (cap : ℚ)
    (h : shortCapOf p m.durationVal = some cap) (hc : 0 ≤ cap) (k : ℤ)
    (hk : cap = (k:ℚ)/10) :
    (score_metadata c m kg p).1 ≤ cap := by
  have hpen : (0:ℝ) ≤ ((kwStateOf m kg).neg_penalty : ℝ) := by
    exact_mod_cast kwStateOf_neg_penalty_nonneg m kg
  have htot : totalPreClamp c m kg p ≤ (cap:ℝ) := by
    unfold totalPreClamp cappedSubtotal
    rw [h]
    have h2 : min (subtotalOf c m kg p) (cap:ℝ) ≤ (cap:ℝ) := min_le_right _ _
    linarith
  have hnorm : normalizedScore c m kg p ≤ (cap:ℝ) := by
    unfold normalizedScore
    refine max_le (by exact_mod_cast hc) (le_trans (min_le_right _ _) htot)
  have hcast : (cap:ℝ) = ((k:ℝ))/10 := by
    rw [hk]; push_cast; ring
  have := roundTenth_le_of_le (hcast ▸ hnorm)
  show roundTenth (normalizedScore c m kg p) ≤ cap
  rw [hk]
  exact this

/-- C4: with `duration = 30` the trace carries the `short_cap` marker for
`short_cap_under2` and (for any nonnegative cap expressed in tenths, as
all parameter values are) the score is at most `short_cap_under2`; with
`duration = 150` the same holds for `short_cap_2to3`; with
`duration = 600` no short-form marker appears; and whenever a cap applies
it does so as `min` on the four-component subtotal, before the
suppression penalty is subtracted. -/
theorem short_cap_behaviour :
    (∀ (c : Candidate) (m : Metadata) (kg : List (String × KwGroup))
        (p : ScoringParams), m.duration = some 30 →
        Reason.short_cap p.short_cap_under2 30 ∈ (score_metadata c m kg p).2
        ∧ (0 ≤ p.short_cap_under2 → (∃ k : ℤ, p.short_cap_under2 = (k:ℚ)/10) →
            (score_metadata c m kg p).1 ≤ p.short_cap_under2))
    ∧ (∀ (c : Candidate) (m : Metadata) (kg : List (String × KwGroup))
        (p : ScoringParams), m.duration = some 150 →
        Reason.short_cap p.short_cap_2to3 150 ∈ (score_metadata c m kg p).2
        ∧ (0 ≤ p.short_cap_2to3 → (∃ k : ℤ, p.short_cap_2to3 = (k:ℚ)/10) →
            (score_metadata c m kg p).1 ≤ p.short_cap_2to3))
    ∧ (∀ (c : Candidate) (m : Metadata) (kg : List (String × KwGroup))
        (p : ScoringParams), m.duration = some 600 →
        ∀ (cap : ℚ) (dur : ℤ),
          Reason.short_cap cap dur ∉ (score_metadata c m kg p).2)
    ∧ (∀ (c : Candidate) (m : Metadata) (kg : List (String × KwGroup))
        (p : ScoringParams) (cap : ℚ), shortCapOf p m.durationVal = some cap →
        totalPreClamp c m kg p
          = min (subtotalOf c m kg p) (cap:ℝ) - ((kwStateOf m kg).neg_penalty : ℝ)) := by
  refine ⟨?_, ?_, ?_, ?_⟩
  · intro c m kg p hd
    have hdv : m.durationVal = 30 := by unfold Metadata.durationVal; rw [hd]; rfl
    have hcap : shortCapOf p m.durationVal = some p.short_cap_under2 := by
      rw [hdv]; unfold shortCapOf; norm_num
    exact ⟨hdv ▸ short_cap_reason_mem c m kg p _ hcap,
      fun hc ⟨k, hk⟩ => score_le_short_cap c m kg p _ hcap hc k hk⟩
  · intro c m kg p hd
    have hdv : m.durationVal = 150 := by unfold Metadata.durationVal; rw [hd]; rfl
    have hcap : shortCapOf p m.durationVal = some p.short_cap_2to3 := by
      rw [hdv]; unfold shortCapOf; norm_num
    exact ⟨hdv ▸ short_cap_reason_mem c m kg p _ hcap,
      fun hc ⟨k, hk⟩ => score_le_short_cap c m kg p _ hcap hc k hk⟩
  · intro c m kg p hd cap dur
    have hdv : m.durationVal = 600 := by unfold Metadata.durationVal; rw [hd]; rfl
    have hcap : shortCapOf p m.durationVal = none := by
      rw [hdv]; unfold shortCapOf; norm_num
    exact no_short_cap_reason c m kg p hcap cap dur
  · intro c m kg p cap h
    unfold totalPreClamp cappedSubtotal
    rw [h]

/-- All-absent metadata with a given duration, for the short-cap
witnesses. -/
def durMeta (dur : ℤ) : Metadata :=
  ⟨none, none, none, some dur, none, none, none⟩

/-- Witness for `short_cap_behaviour` at durations 30, 150 and 600 with
the default parameters. -/
theorem short_cap_behaviour_witness :
    (Reason.short_cap (3.5:ℚ) 30 ∈ (score_metadata candSec (durMeta 30) [] SCORING_PARAMS).2
      ∧ (score_metadata candSec (durMeta 30) [] SCORING_PARAMS).1 ≤ 3.5)
    ∧ (Reason.short_cap (5.0:ℚ) 150 ∈ (score_metadata candSec (durMeta 150) [] SCORING_PARAMS).2
      ∧ (score_metadata candSec (durMeta 150) [] SCORING_PARAMS).1 ≤ 5.0)
    ∧ (∀ (cap : ℚ) (dur : ℤ),
        Reason.short_cap cap dur ∉ (score_metadata candSec (durMeta 600) [] SCORING_PARAMS).2) := by
  have h30 := short_cap_behaviour.1 candSec (durMeta 30) [] SCORING_PARAMS rfl
  have h150 := short_cap_behaviour.2.1 candSec (durMeta 150) [] SCORING_PARAMS rfl
  have h600 := short_cap_behaviour.2.2.1 candSec (durMeta 600) [] SCORING_PARAMS rfl
  exact ⟨⟨h30.1, h30.2 (by norm_num [SCORING_PARAMS]) ⟨35, by norm_num [SCORING_PARAMS]⟩⟩,
    ⟨h150.1, h150.2 (by norm_num [SCORING_PARAMS]) ⟨50, by norm_num [SCORING_PARAMS]⟩⟩, h600⟩

/-! ### C5: suppression groups -/

/-- A negative-weight group whose first matching keyword is `kw0` adds a
flat `2` and the `neg:kw0` trace entry, independently of the weight's
magnitude, and touches nothing else. -/
lemma procGroup_neg (t g d cmb : String) (st : KwState) (name : String)
    (w : ℚ) (kws : List String) (kw0 : String) (hw : w < 0)
    (hfind : kws.find? (fun kw => strIn (strLower kw) cmb) = some kw0) :
    procGroup t g d cmb st (name, ⟨w, kws⟩)
      = { st with neg_penalty := st.neg_penalty + 2,
                  reasons := st.reasons ++ [Reason.neg kw0] } := by
  unfold procGroup
  dsimp only
  rw [if_pos hw, hfind]

/-- The minecraft suppression taxonomy of the C5 scenario
(`{weight: -3, keywords: ["minecraft"]}`). -/
def mcTax : List (String × KwGroup) := [("suppression", ⟨-3, ["minecraft"]⟩)]

/-- Title containing the suppression keyword. -/
def mcMeta : Metadata := ⟨some "Minecraft Build", none, none, some 600, none, none, none⟩

/-- The same metadata with the keyword removed. -/
def mcMeta2 : Metadata := ⟨some "Build", none, none, some 600, none, none, none⟩

lemma mc_kwState : kwStateOf mcMeta mcTax
    = ⟨0, 0 + 2, [], [], [], [Reason.neg "minecraft"]⟩ := by
  unfold kwStateOf kwScan mcTax
  rw [List.foldl_cons, procGroup_neg _ _ _ _ _ _ _ _ "minecraft" (by norm_num) (by decide),
    List.foldl_nil]
  rfl

lemma mc_kwState2 : kwStateOf mcMeta2 mcTax = ⟨0, 0, [], [], [], []⟩ := by
  unfold kwStateOf kwScan mcTax
  rw [List.foldl_cons]
  have hfind : (["minecraft"].find?
      (fun kw => strIn (strLower kw)
        (mcMeta2.titleText ++ " " ++ mcMeta2.tagsText ++ " " ++ mcMeta2.descText)))
      = none := by decide
  unfold procGroup
  dsimp only
  rw [if_pos (by norm_num : (-3:ℚ) < 0), hfind, List.foldl_nil]

/-- C5: a suppression (negative-weight) group subtracts a flat `2.0`
exactly once when any of its keywords occurs in the combined text,
independently of the weight's magnitude, recording `neg:` of the first
matching keyword and scanning no further; concretely, the
`{weight: -3, keywords: ["minecraft"]}` group against title
`"Minecraft Build"` produces the `neg:minecraft` trace entry and a
pre-clamp total exactly `2.0` lower than for the keyword-free title. -/
theorem suppression_flat_penalty :
    (∀ (t g d cmb : String) (st : KwState) (name : String) (w : ℚ)
        (kws : List String) (kw0 : String), w < 0 →
        kws.find? (fun kw => strIn (strLower kw) cmb) = some kw0 →
        procGroup t g d cmb st (name, ⟨w, kws⟩)
          = { st with neg_penalty := st.neg_penalty + 2,
                      reasons := st.reasons ++ [Reason.neg kw0] })
    ∧ Reason.neg "minecraft" ∈ (score_metadata candSec mcMeta mcTax SCORING_PARAMS).2
    ∧ totalPreClamp candSec mcMeta mcTax SCORING_PARAMS
        = totalPreClamp candSec mcMeta2 mcTax SCORING_PARAMS - 2 := by
  refine ⟨fun t g d cmb st name w kws kw0 hw hfind =>
    procGroup_neg t g d cmb st name w kws kw0 hw hfind, ?_, ?_⟩
  · show Reason.neg "minecraft" ∈ reasonsOf candSec mcMeta mcTax SCORING_PARAMS
    simp only [reasonsOf]
    rw [mc_kwState]
    simp
  · unfold totalPreClamp cappedSubtotal subtotalOf
    rw [mc_kwState, mc_kwState2]
    have hnone : shortCapOf SCORING_PARAMS mcMeta.durationVal = none := by
      unfold shortCapOf Metadata.durationVal mcMeta
      norm_num
    have hnone2 : shortCapOf SCORING_PARAMS mcMeta2.durationVal = none := by
      unfold shortCapOf Metadata.durationVal mcMeta2
      norm_num
    rw [hnone, hnone2]
    rw [show depthScore SCORING_PARAMS mcMeta = depthScore SCORING_PARAMS mcMeta2 from rfl,
      show socialScore SCORING_PARAMS mcMeta.views mcMeta.likes
          = socialScore SCORING_PARAMS mcMeta2.views mcMeta2.likes from rfl]
    push_cast
    ring

/-- Witness for `suppression_flat_penalty`: the general suppression-group
equation applied to the concrete minecraft group. -/
theorem suppression_flat_penalty_witness :
    procGroup "" "" "" "minecraft build" ⟨0, 0, [], [], [], []⟩
        ("suppression", ⟨-3, ["minecraft"]⟩)
      = ⟨0, 0 + 2, [], [], [], [] ++ [Reason.neg "minecraft"]⟩ :=
  suppression_flat_penalty.1 "" "" "" "minecraft build" ⟨0, 0, [], [], [], []⟩
    "suppression" (-3) ["minecraft"] "minecraft" (by norm_num) (by decide)

/-! ### C6: channel-authority boost -/

lemma authorityScore_le_one (c : Candidate) : authorityScore c ≤ 1 := by
  unfold authorityScore
  split_ifs <;> norm_num

lemma authorityScore_primary {c : Candidate}
    (h : c.channel_category = some "primary") : authorityScore c = 1 := by
  unfold authorityScore
  rw [if_pos h]

lemma authorityScore_not_primary {c : Candidate}
    (h : c.channel_category ≠ some "primary") : authorityScore c = 0 := by
  unfold authorityScore
  rw [if_neg h]

lemma subtotalOf_mono_authority (c1 c2 : Candidate) (m : Metadata)
    (kg : List (String × KwGroup)) (p : ScoringParams)
    (h : (authorityScore c2 : ℝ) ≤ (authorityScore c1 : ℝ)) :
    subtotalOf c2 m kg p ≤ subtotalOf c1 m kg p := by
  unfold subtotalOf
  exact add_le_add (add_le_add (add_le_add (le_refl _) (le_refl _)) h) (le_refl _)

/-- The end-to-end metadata of the category-boost scenario:
`{duration: 600, tags: [], description: "", title: "", view_count: 0,
like_count: 0}`. -/
def e2eMeta : Metadata := ⟨some "", some "", some [], some 600, none, some 0, some 0⟩

/-- A candidate from a primary channel. -/
def candPri : Candidate := ⟨"vid", "t", some "primary"⟩

/-! The program runs on IEEE-754 binary64 (Python floats), and on the C6
end-to-end scenario the exact-rational idealization and the double
arithmetic round to different tenths: the double sum `0.65 + 1.0` is an
exact tie between two neighbouring doubles and ties-to-even selects
`7430939385161318 / 2^52 = 1.6499999999999999…`, strictly below `1.65`, so
the program reports `1.6`, not `1.7`.  The following model of binary64
rounding (round to nearest, ties-to-even, 53-bit significand, normal
range — ample for the magnitudes of this scenario) makes that observable
divergence provable. -/

/-- Round-half-to-even on rationals: the integer nearest to `q`, with ties
going to the even integer — the tie rule of IEEE-754 binary64. -/
def fpRHE (q : ℚ) : ℤ := if Int.fract q = 1/2 then 2 * round (q / 2) else round q

/-- Round a positive rational to the nearest binary64 value: scale into the
binade `[2^e, 2^(e+1))` found by `Int.log`, round the 53-bit significand
half-to-even, and scale back. -/
def fpRoundPos (q : ℚ) : ℚ :=
  (fpRHE (q * 2 ^ (52 - Int.log 2 q)) : ℚ) * 2 ^ (Int.log 2 q - 52)

/-- The value of a Python float literal or arithmetic result: the nearest
IEEE-754 binary64 value (normal range; overflow and subnormals do not occur
at the magnitudes modelled here). -/
def fpRound (q : ℚ) : ℚ :=
  if 0 < q then fpRoundPos q else if q < 0 then -fpRoundPos (-q) else 0

/-- Python float addition: exact sum, then binary64 rounding. -/
def fpAdd (a b : ℚ) : ℚ := fpRound (a + b)

/-- Python float subtraction: exact difference, then binary64 rounding. -/
def fpSub (a b : ℚ) : ℚ := fpRound (a - b)

/-- Python float multiplication: exact product, then binary64 rounding. -/
def fpMul (a b : ℚ) : ℚ := fpRound (a * b)

/-- Python float division: exact quotient, then binary64 rounding. -/
def fpDiv (a b : ℚ) : ℚ := fpRound (a / b)

/-- Evaluation rule for `fpRound` on a positive rational whose binade
`[2^e, 2^(e+1))` is exhibited explicitly. -/
theorem fpRound_eval (q r : ℚ) (e : ℤ) (h1 : (2:ℚ) ^ e ≤ q) (h2 : q < 2 ^ (e + 1))
    (hr : (fpRHE (q * 2 ^ (52 - e)) : ℚ) * 2 ^ (e - 52) = r) :
    fpRound q = r := by
  have h0 : (0:ℚ) < q := lt_of_lt_of_le (by positivity) h1
  have hlog : Int.log 2 q = e := by
    have hA : ((2:ℕ):ℚ) ^ (Int.log 2 q) ≤ q := Int.zpow_log_le_self (by norm_num) h0
    have hB : q < ((2:ℕ):ℚ) ^ (Int.log 2 q + 1) := Int.lt_zpow_succ_log_self (by norm_num) q
    have hA2 : (2:ℚ) ^ (Int.log 2 q) ≤ q := by exact_mod_cast hA
    have hB2 : q < (2:ℚ) ^ (Int.log 2 q + 1) := by exact_mod_cast hB
    have h5 : Int.log 2 q < e + 1 :=
      (zpow_lt_zpow_iff_right₀ (by norm_num : (1:ℚ) < 2)).1 (lt_of_le_of_lt hA2 h2)
    have h6 : e < Int.log 2 q + 1 :=
      (zpow_lt_zpow_iff_right₀ (by norm_num : (1:ℚ) < 2)).1 (lt_of_le_of_lt h1 hB2)
    omega
  rw [fpRound, if_pos h0, fpRoundPos, hlog, hr]

lemma fpRound_zero : fpRound 0 = 0 := by
  rw [fpRound]; norm_num

lemma fpR_92 : fpRound (9/2) = 9/2 :=
  fpRound_eval _ _ 2 (by norm_num) (by norm_num)
    (by norm_num [fpRHE, Int.fract, round_eq])

lemma fpR_52 : fpRound (5/2) = 5/2 :=
  fpRound_eval _ _ 1 (by norm_num) (by norm_num)
    (by norm_num [fpRHE, Int.fract, round_eq])

lemma fpR_34 : fpRound (3/4) = 3/4 :=
  fpRound_eval _ _ (-1) (by norm_num) (by norm_num)
    (by norm_num [fpRHE, Int.fract, round_eq])

/-- The double nearest to `0.4`: `3602879701896397 / 2^53`. -/
lemma fpR_25 : fpRound (2/5) = 3602879701896397/9007199254740992 :=
  fpRound_eval _ _ (-2) (by norm_num) (by norm_num)
    (by norm_num [fpRHE, Int.fract, round_eq])

/-- The double `0.4` is representable, hence a fixed point of `fpRound`. -/
lemma fpR_A04 : fpRound (3602879701896397/9007199254740992)
    = 3602879701896397/9007199254740992 :=
  fpRound_eval _ _ (-2) (by norm_num) (by norm_num)
    (by norm_num [fpRHE, Int.fract, round_eq])

/-- The double nearest to `0.65`: `5854679515581645 / 2^53`, which is
strictly above `13/20`. -/
lemma fpR_1320 : fpRound (13/20) = 5854679515581645/9007199254740992 :=
  fpRound_eval _ _ (-1) (by norm_num) (by norm_num)
    (by norm_num [fpRHE, Int.fract, round_eq])

/-- The double `0.65` is representable, hence a fixed point of `fpRound`. -/
lemma fpR_A065 : fpRound (5854679515581645/9007199254740992)
    = 5854679515581645/9007199254740992 :=
  fpRound_eval _ _ (-1) (by norm_num) (by norm_num)
    (by norm_num [fpRHE, Int.fract, round_eq])

/-- The exact product `2.5 * 0.4` of the corresponding doubles is
`1 + 2^-54`, which rounds back to `1.0` exactly. -/
lemma fpR_mid : fpRound (18014398509481985/18014398509481984) = 1 :=
  fpRound_eval _ _ 0 (by norm_num) (by norm_num)
    (by norm_num [fpRHE, Int.fract, round_eq])

/-- The crucial tie: the exact sum `0.65 + 1.0` of doubles is
`14861878770322637 / 2^53`, whose 53-bit significand ends in `….5` — an
exact tie — and ties-to-even rounds DOWN to `7430939385161318 / 2^52`,
which is strictly below `1.65`. -/
lemma fpR_tie : fpRound (14861878770322637/9007199254740992)
    = 7430939385161318/4503599627370496 :=
  fpRound_eval _ _ 0 (by norm_num) (by norm_num)
    (by norm_num [fpRHE, Int.fract, round_eq])

/-- The rounded sum `fl(0.65 + 1.0)` is representable, hence a fixed point
of `fpRound`. -/
lemma fpR_T : fpRound (7430939385161318/4503599627370496)
    = 7430939385161318/4503599627370496 :=
  fpRound_eval _ _ 0 (by norm_num) (by norm_num)
    (by norm_num [fpRHE, Int.fract, round_eq])

/-- Binary64 evaluation of the pre-clamp total of `score_metadata` on the
C6 end-to-end scenario (`e2eMeta`, empty taxonomy, default parameters),
with `auth` the authority score (`1.0` for primary, `0.0` otherwise),
mirroring the source expression by expression in evaluation order:
* `keyword_score = min(4.5, 2.2 * math.sqrt(0.0))` (empty taxonomy gives
  `raw_kw_score = 0.0`, and `math.sqrt(0.0) = 0.0` exactly);
* `duration_factor = 0.4 + 0.6 * ((600 - 600) / 1200)`;
* `chapter_factor = 0.65` (`ch_factor_none`, no chapters);
* `depth_score = 2.5 * duration_factor * chapter_factor`, left-associated;
* `social_score = min(0.75, 0.0 + 0.0)` (zero views and likes);
* no short cap at duration 600;
* `subtotal = ((keyword_score + depth_score) + auth) + social_score` and
  `total = subtotal - 0.0` (no negative-keyword penalty).
Python's `min`/`max` return an argument unchanged, so they need no
rounding step. -/
def fpTotalOf (auth : ℚ) : ℚ :=
  let kw := min (fpRound (9/2)) (fpMul (fpRound (11/5)) 0)
  let durF := fpAdd (fpRound (2/5)) (fpMul (fpRound (3/5)) (fpDiv 0 1200))
  let depth := fpMul (fpMul (fpRound (5/2)) durF) (fpRound (13/20))
  let social := min (fpRound (3/4)) (fpAdd 0 0)
  fpSub (fpAdd (fpAdd (fpAdd kw depth) auth) social) 0

/-- Binary64 final score of the C6 end-to-end scenario: clamp (exact
comparisons on doubles), then `round(·, 1)`.  Python rounds the exact
value of the double to one decimal half-to-even; at both totals of this
scenario the scaled value `10 * total` is not a half-integer, so
half-to-even and the embedding's `roundTenth` agree. -/
noncomputable def fpScoreOf (auth : ℚ) : ℚ :=
  roundTenth ((max 0 (min 10 (fpTotalOf auth)) : ℚ) : ℝ)

lemma fpTotal_pri : fpTotalOf 1 = 7430939385161318/4503599627370496 := by
  simp only [fpTotalOf, fpAdd, fpSub, fpMul, fpDiv]
  simp only [zero_div, mul_zero, add_zero, sub_zero, fpRound_zero]
  rw [fpR_92, fpR_25, fpR_A04, fpR_34, fpR_52, fpR_1320]
  rw [show min ((9:ℚ)/2) 0 = 0 from by norm_num,
    show min ((3:ℚ)/4) 0 = 0 from by norm_num]
  rw [show (5:ℚ)/2 * (3602879701896397/9007199254740992)
        = 18014398509481985/18014398509481984 from by norm_num, fpR_mid]
  rw [one_mul, fpR_A065]
  rw [zero_add, fpR_A065]
  rw [show (5854679515581645:ℚ)/9007199254740992 + 1
        = 14861878770322637/9007199254740992 from by norm_num, fpR_tie]
  simp only [add_zero, fpR_T]

lemma fpTotal_sec : fpTotalOf 0 = 5854679515581645/9007199254740992 := by
  simp only [fpTotalOf, fpAdd, fpSub, fpMul, fpDiv]
  simp only [zero_div, mul_zero, add_zero, sub_zero, fpRound_zero]
  rw [fpR_92, fpR_25, fpR_A04, fpR_34, fpR_52, fpR_1320]
  rw [show min ((9:ℚ)/2) 0 = 0 from by norm_num,
    show min ((3:ℚ)/4) 0 = 0 from by norm_num]
  rw [show (5:ℚ)/2 * (3602879701896397/9007199254740992)
        = 18014398509481985/18014398509481984 from by norm_num, fpR_mid]
  rw [one_mul, fpR_A065]
  simp only [zero_add, add_zero, fpR_A065]

/-- The program's primary-candidate score on the end-to-end scenario:
`1.6499999999999999…` rounds to `1.6`. -/
lemma fpScore_pri : fpScoreOf 1 = 8/5 := by
  rw [fpScoreOf, fpTotal_pri]
  rw [show max 0 (min 10 ((7430939385161318:ℚ)/4503599627370496))
        = 7430939385161318/4503599627370496 from by norm_num]
  rw [roundTenth]
  norm_num [round_eq]

/-- The program's secondary-candidate score on the end-to-end scenario:
`0.65000000000000002…` rounds to `0.7`. -/
lemma fpScore_sec : fpScoreOf 0 = 7/10 := by
  rw [fpScoreOf, fpTotal_sec]
  rw [show max 0 (min 10 ((5854679515581645:ℚ)/9007199254740992))
        = 5854679515581645/9007199254740992 from by norm_num]
  rw [roundTenth]
  norm_num [round_eq]

/-- C6 counterexample: executed in IEEE-754 binary64 arithmetic — the
float semantics of the Python program — the end-to-end scenario gives the
primary candidate (authority `1.0`) a final score of `1.6` and the
secondary candidate (authority `0.0`) a final score of `0.7`: the double
sum `0.65 + 1.0` is an exact tie and ties-to-even lands strictly below
`1.65`, so the observed boost is `+0.9`, refuting the claimed exact
`+1.0` on this scenario. -/
theorem category_boost_float_counterexample :
    fpScoreOf (authorityScore candPri) = 8/5
    ∧ fpScoreOf (authorityScore candSec) = 7/10
    ∧ fpScoreOf (authorityScore candPri) ≠ fpScoreOf (authorityScore candSec) + 1 := by
  rw [authorityScore_primary rfl, authorityScore_not_primary (by decide)]
  rw [fpScore_pri, fpScore_sec]
  norm_num

/-- C6 (amended): for fixed metadata, taxonomy and parameters a
primary-channel candidate never scores below any other candidate; when
the other candidate is not primary the four-component subtotal (before
capping/clamping) is exactly `1.0` higher in exact arithmetic; but in the
program's binary64 arithmetic the end-to-end scenario actually reports
`1.6` versus `0.7` — a final-score difference of `+0.9`, not `+1.0`. -/
theorem category_boost_amended :
    (∀ (c1 c2 : Candidate) (m : Metadata) (kg : List (String × KwGroup))
        (p : ScoringParams), c1.channel_category = some "primary" →
        (score_metadata c2 m kg p).1 ≤ (score_metadata c1 m kg p).1)
    ∧ (∀ (c1 c2 : Candidate) (m : Metadata) (kg : List (String × KwGroup))
        (p : ScoringParams), c1.channel_category = some "primary" →
        c2.channel_category ≠ some "primary" →
        subtotalOf c1 m kg p = subtotalOf c2 m kg p + 1)
    ∧ fpScoreOf (authorityScore candPri)
        = fpScoreOf (authorityScore candSec) + 9/10 := by
  refine ⟨?_, ?_, ?_⟩
  · intro c1 c2 m kg p h1
    have hauth : (authorityScore c2 : ℝ) ≤ (authorityScore c1 : ℝ) := by
      rw [authorityScore_primary h1]
      exact_mod_cast authorityScore_le_one c2
    apply roundTenth_mono
    unfold normalizedScore
    apply max_le_max (le_refl _)
    apply min_le_min (le_refl _)
    unfold totalPreClamp
    apply sub_le_sub_right
    unfold cappedSubtotal
    cases hcap : shortCapOf p m.durationVal with
    | none => exact subtotalOf_mono_authority c1 c2 m kg p hauth
    | some cap =>
        exact min_le_min (subtotalOf_mono_authority c1 c2 m kg p hauth) (le_refl _)
  · intro c1 c2 m kg p h1 h2
    unfold subtotalOf
    rw [authorityScore_primary h1, authorityScore_not_primary h2]
    push_cast
    ring
  · rw [authorityScore_primary rfl, authorityScore_not_primary (by decide)]
    rw [fpScore_pri, fpScore_sec]
    norm_num

/-- Witness for `category_boost_amended` on the end-to-end scenario
candidates. -/
theorem category_boost_amended_witness :
    (score_metadata candSec e2eMeta [] SCORING_PARAMS).1
        ≤ (score_metadata candPri e2eMeta [] SCORING_PARAMS).1
    ∧ subtotalOf candPri e2eMeta [] SCORING_PARAMS
        = subtotalOf candSec e2eMeta [] SCORING_PARAMS + 1 :=
  ⟨category_boost_amended.1 candPri candSec e2eMeta [] SCORING_PARAMS rfl,
   category_boost_amended.2.1 candPri candSec e2eMeta [] SCORING_PARAMS rfl (by decide)⟩

/-! ### C2, C9: the grid-search selection loop -/

/-- `p` survives the hard constraint: its evaluation exists and classifies
every labelled video correctly (`correct` is capped by the list length, so
`length ≤ correct` is exactly `correct == len(videos)`). -/
def Surv (videos : List LabeledVideo) (kg : List (String × KwGroup))
    (p : ScoringParams) (e : EvalResult) : Prop :=
  evaluate_params p videos kg = some e ∧ videos.length ≤ e.correct

/-- Strictly better in the selection order: smaller MAE, or equal MAE and
strictly larger Spearman correlation. -/
def StatBetter (a b : ℚ × ℚ) : Prop :=
  a.1 < b.1 ∨ (a.1 = b.1 ∧ b.2 < a.2)

lemma statBetter_irrefl (a : ℚ × ℚ) : ¬ StatBetter a a := by
  rintro (h | ⟨h1, h2⟩) <;> linarith

lemma statBetter_trans {a b c : ℚ × ℚ} (h1 : StatBetter a b)
    (h2 : StatBetter b c) : StatBetter a c := by
  rcases h1 with h | ⟨ha, hb⟩ <;> rcases h2 with h' | ⟨ha', hb'⟩
  · exact Or.inl (by linarith)
  · exact Or.inl (by linarith)
  · exact Or.inl (by linarith)
  · exact Or.inr ⟨by linarith, by linarith⟩

lemma statBetter_trans_not {a s e : ℚ × ℚ} (h1 : StatBetter a s)
    (h2 : ¬ StatBetter e s) : StatBetter a e := by
  unfold StatBetter at h2
  push_neg at h2
  obtain ⟨h21, h22⟩ := h2
  rcases h1 with h | ⟨ha, hb⟩
  · exact Or.inl (by linarith)
  · rcases lt_or_eq_of_le h21 with h | h
    · exact Or.inl (by linarith)
    · exact Or.inr ⟨by linarith, by linarith [h22 h.symm]⟩

/-- The selected optimum is backed by an evaluation that satisfies the
hard constraint and whose statistics are the recorded ones. -/
def GoodBest (videos : List LabeledVideo) (kg : List (String × KwGroup))
    (b : BestRec) : Prop :=
  ∃ e : EvalResult, evaluate_params b.params videos kg = some e
    ∧ videos.length ≤ e.correct ∧ e.mae = b.mae ∧ e.spearman = b.spearman
    ∧ e.scores = b.scores

lemma calibStep_eval_none {videos : List LabeledVideo}
    {kg : List (String × KwGroup)} {s : Option BestRec} {p : ScoringParams}
    (h : evaluate_params p videos kg = none) : calibStep videos kg s p = s := by
  unfold calibStep
  rw [h]

lemma calibStep_fail {videos : List LabeledVideo} {kg : List (String × KwGroup)}
    {s : Option BestRec} {p : ScoringParams} {e : EvalResult}
    (he : evaluate_params p videos kg = some e)
    (hc : e.correct < videos.length) : calibStep videos kg s p = s := by
  unfold calibStep
  rw [he]
  dsimp only
  rw [if_pos hc]

lemma calibStep_none_pass {videos : List LabeledVideo}
    {kg : List (String × KwGroup)} {p : ScoringParams} {e : EvalResult}
    (he : evaluate_params p videos kg = some e)
    (hc : ¬ e.correct < videos.length) :
    calibStep videos kg none p = some ⟨p, e.mae, e.spearman, e.scores⟩ := by
  unfold calibStep
  rw [he]
  dsimp only
  rw [if_neg hc]

lemma calibStep_update {videos : List LabeledVideo}
    {kg : List (String × KwGroup)} {b : BestRec} {p : ScoringParams}
    {e : EvalResult} (he : evaluate_params p videos kg = some e)
    (hc : ¬ e.correct < videos.length)
    (hu : e.mae < b.mae ∨ (e.mae = b.mae ∧ b.spearman < e.spearman)) :
    calibStep videos kg (some b) p = some ⟨p, e.mae, e.spearman, e.scores⟩ := by
  unfold calibStep
  rw [he]
  dsimp only
  rw [if_neg hc]
  exact if_pos hu

lemma calibStep_keep {videos : List LabeledVideo}
    {kg : List (String × KwGroup)} {b : BestRec} {p : ScoringParams}
    {e : EvalResult} (he : evaluate_params p videos kg = some e)
    (hc : ¬ e.correct < videos.length)
    (hu : ¬ (e.mae < b.mae ∨ (e.mae = b.mae ∧ b.spearman < e.spearman))) :
    calibStep videos kg (some b) p = some b := by
  unfold calibStep
  rw [he]
  dsimp only
  rw [if_neg hc]
  exact if_neg hu

/-- Main fold invariant of the selection loop: a produced optimum either
came in as the initial state and no processed survivor strictly beats it,
or it sits at a position in the processed list such that it is a
constraint-satisfying evaluation, strictly beats every earlier survivor
and the initial state, and is not strictly beaten by any later
survivor. -/
lemma calib_fold_split (videos : List LabeledVideo)
    (kg : List (String × KwGroup)) :
    ∀ (combos : List ScoringParams) (s : Option BestRec) (b : BestRec),
      combos.foldl (calibStep videos kg) s = some b →
      (s = some b ∧ ∀ p ∈ combos, ∀ e : EvalResult, Surv videos kg p e →
          ¬ StatBetter (e.mae, e.spearman) (b.mae, b.spearman))
      ∨ (∃ l1 l2, combos = l1 ++ b.params :: l2
          ∧ GoodBest videos kg b
          ∧ (∀ a : BestRec, s = some a →
              StatBetter (b.mae, b.spearman) (a.mae, a.spearman))
          ∧ (∀ p ∈ l1, ∀ e : EvalResult, Surv videos kg p e →
              StatBetter (b.mae, b.spearman) (e.mae, e.spearman))
          ∧ (∀ p ∈ l2, ∀ e : EvalResult, Surv videos kg p e →
              ¬ StatBetter (e.mae, e.spearman) (b.mae, b.spearman))) := by
  intro combos
  induction combos with
  | nil =>
    intro s b h
    simp only [List.foldl_nil] at h
    exact Or.inl ⟨h, by simp⟩
  | cons c cs ih =>
    intro s b h
    rw [List.foldl_cons] at h
    rcases ih (calibStep videos kg s c) b h with ⟨hsb, hcs⟩ |
      ⟨l1, l2, hsplit, hgood, hs, hl1, hl2⟩
    · -- the optimum was already the state after processing `c`
      cases heval : evaluate_params c videos kg with
      | none =>
        rw [calibStep_eval_none heval] at hsb
        refine Or.inl ⟨hsb, fun p hp e hse => ?_⟩
        rcases List.mem_cons.1 hp with rfl | hp'
        · obtain ⟨hev, hcor⟩ := hse
          rw [heval] at hev
          exact Option.noConfusion hev
        · exact hcs p hp' e hse
      | some e =>
        by_cases hc : e.correct < videos.length
        · rw [calibStep_fail heval hc] at hsb
          refine Or.inl ⟨hsb, fun p hp e' hse' => ?_⟩
          rcases List.mem_cons.1 hp with rfl | hp'
          · obtain ⟨hev, hcor⟩ := hse'
            rw [heval] at hev
            obtain rfl := Option.some.inj hev
            omega
          · exact hcs p hp' e' hse'
        · cases s with
          | none =>
            rw [calibStep_none_pass heval hc] at hsb
            obtain rfl := (Option.some.inj hsb).symm
            refine Or.inr ⟨[], cs, by simp, ⟨e, heval, not_lt.1 hc, rfl, rfl, rfl⟩,
              by simp, by simp, hcs⟩
          | some a =>
            by_cases hu : e.mae < a.mae ∨ (e.mae = a.mae ∧ a.spearman < e.spearman)
            · rw [calibStep_update heval hc hu] at hsb
              obtain rfl := (Option.some.inj hsb).symm
              refine Or.inr ⟨[], cs, by simp, ⟨e, heval, not_lt.1 hc, rfl, rfl, rfl⟩,
                ?_, by simp, hcs⟩
              intro a' ha'
              obtain rfl := (Option.some.inj ha').symm
              exact hu
            · rw [calibStep_keep heval hc hu] at hsb
              obtain rfl := (Option.some.inj hsb).symm
              refine Or.inl ⟨rfl, fun p hp e' hse' => ?_⟩
              rcases List.mem_cons.1 hp with rfl | hp'
              · obtain ⟨hev, hcor⟩ := hse'
                rw [heval] at hev
                obtain rfl := Option.some.inj hev
                exact hu
              · exact hcs p hp' e' hse'
    · -- the optimum sits inside `cs`
      refine Or.inr ⟨c :: l1, l2, by rw [hsplit]; rfl, hgood, ?_, ?_, hl2⟩
      · -- the optimum strictly beats the incoming state
        intro a ha
        subst ha
        cases heval : evaluate_params c videos kg with
        | none => exact hs a (by rw [calibStep_eval_none heval])
        | some e =>
          by_cases hc : e.correct < videos.length
          · exact hs a (by rw [calibStep_fail heval hc])
          · by_cases hu : e.mae < a.mae ∨ (e.mae = a.mae ∧ a.spearman < e.spearman)
            · have hb := hs ⟨c, e.mae, e.spearman, e.scores⟩
                (by rw [calibStep_update heval hc hu])
              exact statBetter_trans hb hu
            · exact hs a (by rw [calibStep_keep heval hc hu])
      · -- the optimum strictly beats every earlier survivor
        intro p hp e' hse'
        rcases List.mem_cons.1 hp with rfl | hp'
        · obtain ⟨hev, hcor⟩ := hse'
          have hnc : ¬ e'.correct < videos.length := not_lt.2 hcor
          cases s with
          | none =>
            exact hs ⟨p, e'.mae, e'.spearman, e'.scores⟩
              (by rw [calibStep_none_pass hev hnc])
          | some a =>
            by_cases hu : e'.mae < a.mae ∨ (e'.mae = a.mae ∧ a.spearman < e'.spearman)
            · exact hs ⟨p, e'.mae, e'.spearman, e'.scores⟩
                (by rw [calibStep_update hev hnc hu])
            · exact statBetter_trans_not (hs a (by rw [calibStep_keep hev hnc hu])) hu
        · exact hl1 p hp' e' hse'

/-- The selection loop yields `none` exactly when the initial state is
`none` and no processed combination satisfies the hard constraint. -/
lemma calib_fold_none (videos : List LabeledVideo)
    (kg : List (String × KwGroup)) :
    ∀ (combos : List ScoringParams) (s : Option BestRec),
      combos.foldl (calibStep videos kg) s = none ↔
        (s = none ∧ ∀ p ∈ combos, ∀ e : EvalResult,
          evaluate_params p videos kg = some e → e.correct < videos.length) := by
  intro combos
  induction combos with
  | nil =>
    intro s
    simp
  | cons c cs ih =>
    intro s
    rw [List.foldl_cons, ih]
    constructor
    · rintro ⟨hstep, hrest⟩
      cases heval : evaluate_params c videos kg with
      | none =>
        rw [calibStep_eval_none heval] at hstep
        refine ⟨hstep, fun p hp e hev => ?_⟩
        rcases List.mem_cons.1 hp with rfl | hp'
        · rw [heval] at hev
          exact Option.noConfusion hev
        · exact hrest p hp' e hev
      | some e =>
        by_cases hc : e.correct < videos.length
        · rw [calibStep_fail heval hc] at hstep
          refine ⟨hstep, fun p hp e' hev => ?_⟩
          rcases List.mem_cons.1 hp with rfl | hp'
          · rw [heval] at hev
            obtain rfl := Option.some.inj hev
            exact hc
          · exact hrest p hp' e' hev
        · exfalso
          cases s with
          | none =>
            rw [calibStep_none_pass heval hc] at hstep
            exact Option.noConfusion hstep
          | some a =>
            by_cases hu : e.mae < a.mae ∨ (e.mae = a.mae ∧ a.spearman < e.spearman)
            · rw [calibStep_update heval hc hu] at hstep
              exact Option.noConfusion hstep
            · rw [calibStep_keep heval hc hu] at hstep
              exact Option.noConfusion hstep
    · rintro ⟨hs, hall⟩
      subst hs
      refine ⟨?_, fun p hp e hev => hall p (List.mem_cons_of_mem c hp) e hev⟩
      cases heval : evaluate_params c videos kg with
      | none => exact calibStep_eval_none heval
      | some e => exact calibStep_fail heval (hall c (by simp) e heval)

/-- The `correct` statistic returned by `evaluate_params` is the count of
labelled videos whose predicted label matches the expectation. -/
lemma evaluate_params_correct_eq {p : ScoringParams} {videos : List LabeledVideo}
    {kg : List (String × KwGroup)} {e : EvalResult}
    (he : evaluate_params p videos kg = some e) :
    e.correct = videos.countP
      (fun v => decide (predictedLabel p kg v = v.ref.expected)) := by
  simp only [evaluate_params] at he
  split at he
  · exact Option.noConfusion he
  · obtain rfl := (Option.some.inj he).symm
    rfl

/-- C2: the calibration search never selects a best parameter set whose
accuracy count is below the full labelled-set size — any returned optimum
classifies every labelled example correctly at the threshold — and when
zero combinations satisfy the hard constraint the result is the explicit,
distinguishable error outcome (`none`, Python's
`ERROR ... sys.exit(1)` path), never a best-effort parameter set. -/
theorem calibrate_hard_constraint :
    (∀ (combos : List ScoringParams) (videos : List LabeledVideo)
        (kg : List (String × KwGroup)) (b : BestRec),
        calibrate_grid_search combos videos kg = some b →
        ∃ e : EvalResult, evaluate_params b.params videos kg = some e
          ∧ e.correct = videos.length
          ∧ ∀ v ∈ videos, predictedLabel b.params kg v = v.ref.expected)
    ∧ (∀ (combos : List ScoringParams) (videos : List LabeledVideo)
        (kg : List (String × KwGroup)),
        calibrate_grid_search combos videos kg = none ↔
          ∀ p ∈ combos, ∀ e : EvalResult,
            evaluate_params p videos kg = some e → e.correct < videos.length) := by
  constructor
  · intro combos videos kg b hb
    rcases calib_fold_split videos kg combos none b hb with ⟨h, _⟩ |
      ⟨l1, l2, _, ⟨e, hev, hcor, _, _, _⟩, _, _, _⟩
    · exact Option.noConfusion h
    · have hle : e.correct ≤ videos.length := by
        rw [evaluate_params_correct_eq hev]
        exact List.countP_le_length _
      have heq : e.correct = videos.length := le_antisymm hle hcor
      refine ⟨e, hev, heq, ?_⟩
      have hcnt := heq
      rw [evaluate_params_correct_eq hev] at hcnt
      have hall := List.countP_eq_length.1 hcnt
      intro v hv
      simpa using hall v hv
  · intro combos videos kg
    unfold calibrate_grid_search
    rw [calib_fold_none videos kg combos none]
    simp

/-- C9: among constraint-satisfying combinations the selected optimum has
minimal MAE, maximal Spearman among MAE ties, and is the first-found such
combination in enumeration order: every earlier surviving combination is
strictly worse, so repeated runs over the same inputs return the same
best parameter set. -/
theorem calibrate_first_found_optimum :
    ∀ (combos : List ScoringParams) (videos : List LabeledVideo)
      (kg : List (String × KwGroup)) (b : BestRec),
      calibrate_grid_search combos videos kg = some b →
      (∀ p ∈ combos, ∀ e : EvalResult, evaluate_params p videos kg = some e →
          videos.length ≤ e.correct →
          b.mae ≤ e.mae ∧ (b.mae = e.mae → e.spearman ≤ b.spearman))
      ∧ ∃ l1 l2, combos = l1 ++ b.params :: l2
          ∧ (∃ e : EvalResult, evaluate_params b.params videos kg = some e
              ∧ videos.length ≤ e.correct ∧ e.mae = b.mae ∧ e.spearman = b.spearman)
          ∧ ∀ p ∈ l1, ∀ e : EvalResult, evaluate_params p videos kg = some e →
              videos.length ≤ e.correct →
              b.mae < e.mae ∨ (b.mae = e.mae ∧ e.spearman < b.spearman) := by
  intro combos videos kg b hb
  rcases calib_fold_split videos kg combos none b hb with ⟨h, _⟩ |
    ⟨l1, l2, hsplit, ⟨e0, hev0, hcor0, hm0, hs0, _⟩, _, hl1, hl2⟩
  · exact Option.noConfusion h
  constructor
  · intro p hp e hev hcor
    rw [hsplit] at hp
    rcases List.mem_append.1 hp with hp1 | hp2
    · rcases hl1 p hp1 e ⟨hev, hcor⟩ with h | ⟨h1, h2⟩
      · exact ⟨le_of_lt h, fun heq => absurd heq (ne_of_lt h)⟩
      · exact ⟨le_of_eq h1, fun _ => le_of_lt h2⟩
    · rcases List.mem_cons.1 hp2 with rfl | hp3
      · rw [hev0] at hev
        obtain rfl := Option.some.inj hev
        exact ⟨le_of_eq hm0.symm, fun _ => le_of_eq hs0⟩
      · have hnb := hl2 p hp3 e ⟨hev, hcor⟩
        unfold StatBetter at hnb
        push_neg at hnb
        exact ⟨hnb.1, fun heq => hnb.2 heq.symm⟩
  · exact ⟨l1, l2, hsplit, ⟨e0, hev0, hcor0, hm0, hs0⟩,
      fun p hp1 e hev hcor => hl1 p hp1 e ⟨hev, hcor⟩⟩

lemma v0_score : (score_metadata (⟨"id0", "t", none⟩ : Candidate)
    (⟨none, none, none, none, none, none, none⟩ : Metadata) [] SCORING_PARAMS).1 = 0 := by
  have hns : ((none : Option String) = some "primary") = False := by simp
  simp only [score_metadata, normalizedScore, totalPreClamp, cappedSubtotal,
    subtotalOf, kwStateOf, kwScan, shortCapOf, depthScore, socialScore,
    authorityScore, viewPts, engagementPts, durationFactor, chapterFactor,
    keywordScore, roundTenth, Metadata.durationVal, Metadata.views,
    Metadata.likes, Metadata.chapterCount, Metadata.titleText,
    Metadata.tagsText, Metadata.descText, Metadata.tagList,
    SCORING_PARAMS, List.foldl, Option.getD_some, Option.getD_none, hns, if_false]
  norm_num [Real.sqrt_zero, round_eq, min_def, max_def]

lemma labeledV0_label : predictedLabel SCORING_PARAMS [] labeledV0 = "FAIL" := by
  unfold predictedLabel
  have h : (score_metadata labeledV0.candidate labeledV0.metadata [] SCORING_PARAMS).1
      = 0 := v0_score
  rw [h]
  norm_num [THRESHOLD]

lemma labeledV0_eval : evaluate_params SCORING_PARAMS [labeledV0] []
    = some ⟨3, 0, 1, [0]⟩ := by
  have hsc : (score_metadata labeledV0.candidate labeledV0.metadata [] SCORING_PARAMS).1
      = 0 := v0_score
  have hlab : (decide (predictedLabel SCORING_PARAMS [] labeledV0
      = labeledV0.ref.expected)) = true := by
    rw [labeledV0_label]
    rfl
  have hcl : labeledV0.ref.claude_score = 3 := rfl
  simp only [evaluate_params, List.map_cons, List.map_nil, List.countP_cons,
    List.countP_nil, List.length_cons, List.length_nil, hsc, hlab, hcl]
  rw [if_neg (by norm_num)]
  simp only [List.zip_cons_cons, List.zip_nil_right, List.map_cons, List.map_nil,
    List.sum_cons, List.sum_nil, spearman_rank_correlation, List.length_cons,
    List.length_nil]
  norm_num

lemma calib_run : calibrate_grid_search [SCORING_PARAMS] [labeledV0] []
    = some ⟨SCORING_PARAMS, 3, 0, [0]⟩ := by
  unfold calibrate_grid_search
  rw [List.foldl_cons, calibStep_none_pass labeledV0_eval (by simp), List.foldl_nil]

/-- Witness for `calibrate_hard_constraint` on a concrete
one-combination, one-video run. -/
theorem calibrate_hard_constraint_witness :
    ∃ e : EvalResult,
      evaluate_params (⟨SCORING_PARAMS, 3, 0, [0]⟩ : BestRec).params [labeledV0] []
          = some e
        ∧ e.correct = [labeledV0].length
        ∧ ∀ v ∈ [labeledV0],
            predictedLabel (⟨SCORING_PARAMS, 3, 0, [0]⟩ : BestRec).params [] v
              = v.ref.expected :=
  calibrate_hard_constraint.1 [SCORING_PARAMS] [labeledV0] [] _ calib_run

/-- Witness for `calibrate_first_found_optimum` on the same concrete
run. -/
theorem calibrate_first_found_optimum_witness :
    (⟨SCORING_PARAMS, 3, 0, [0]⟩ : BestRec).mae ≤ (3:ℚ) := by
  have h := calibrate_first_found_optimum [SCORING_PARAMS] [labeledV0] [] _ calib_run
  have h2 := h.1 SCORING_PARAMS (by simp) ⟨3, 0, 1, [0]⟩ labeledV0_eval (by simp)
  simpa using h2.1

/-! ### C8: the Spearman rank correlation -/

section Spearman

variable {α : Type*} [LinearOrder α]

lemma sortedPairs_perm (vals : List α) : (sortedPairs vals).Perm vals.enum :=
  List.perm_insertionSort _ _

lemma sortedPairs_sorted (vals : List α) :
    (sortedPairs vals).Sorted (fun a b : ℕ × α => a.2 ≤ b.2) := by
  haveI h1 : IsTotal (ℕ × α) (fun a b : ℕ × α => a.2 ≤ b.2) :=
    ⟨fun a b => le_total a.2 b.2⟩
  haveI h2 : IsTrans (ℕ × α) (fun a b : ℕ × α => a.2 ≤ b.2) :=
    ⟨fun _ _ _ hab hbc => le_trans hab hbc⟩
  exact List.sorted_insertionSort _ _

lemma sortedPairs_map_fst_perm (vals : List α) :
    ((sortedPairs vals).map Prod.fst).Perm (List.range vals.length) := by
  have h := (sortedPairs_perm vals).map Prod.fst
  rw [List.enum_eq_enumFrom, List.enumFrom_map_fst, ← List.range_eq_range'] at h
  exact h

lemma sortedPairs_nodup_fst (vals : List α) :
    ((sortedPairs vals).map Prod.fst).Nodup :=
  ((sortedPairs_map_fst_perm vals).nodup_iff).2 (List.nodup_range _)

lemma sortedPairs_length (vals : List α) :
    (sortedPairs vals).length = vals.length := by
  rw [(sortedPairs_perm vals).length_eq, List.enum_length]

lemma sortedPairs_snd_perm (vals : List α) :
    ((sortedPairs vals).map Prod.snd).Perm vals := by
  have h := (sortedPairs_perm vals).map Prod.snd
  rw [List.enum_eq_enumFrom, List.enumFrom_map_snd] at h
  exact h

lemma assignRanks_cons (p : ℕ) (q : ℕ × α) (rest : List (ℕ × α)) :
    assignRanks p (q :: rest)
      = (q :: rest.takeWhile (fun r => decide (r.2 = q.2))).map
          (fun r => (r.1,
            (((p + (p + (q :: rest.takeWhile (fun r => decide (r.2 = q.2))).length - 1) : ℕ) : ℚ)) / 2 + 1))
        ++ assignRanks (p + (q :: rest.takeWhile (fun r => decide (r.2 = q.2))).length)
            (rest.dropWhile (fun r => decide (r.2 = q.2))) := by
  rw [assignRanks]

lemma dropWhile_strict_of_sorted :
    ∀ (l : List (ℕ × α)) (v0 : α),
      l.Pairwise (fun a b : ℕ × α => a.2 ≤ b.2) → (∀ x ∈ l, v0 ≤ x.2) →
      ∀ x ∈ l.dropWhile (fun r => decide (r.2 = v0)), v0 < x.2
  | [], _, _, _, x, hx => by simp at hx
  | a :: t, v0, hp, hge, x, hx => by
    by_cases ha : a.2 = v0
    · rw [List.dropWhile_cons, if_pos (by simp [ha])] at hx
      exact dropWhile_strict_of_sorted t v0 (List.pairwise_cons.1 hp).2
        (fun y hy => hge y (List.mem_cons_of_mem _ hy)) x hx
    · rw [List.dropWhile_cons, if_neg (by simp [ha])] at hx
      rcases List.mem_cons.1 hx with rfl | hx'
      · exact lt_of_le_of_ne (hge x (List.mem_cons_self _ _)) (Ne.symm ha)
      · exact lt_of_lt_of_le
          (lt_of_le_of_ne (hge a (List.mem_cons_self _ _)) (Ne.symm ha))
          ((List.pairwise_cons.1 hp).1 x hx')

lemma lookup_map_const {l : List (ℕ × α)} {i : ℕ} (h : i ∈ l.map Prod.fst)
    (c : ℚ) : (l.map (fun r => (r.1, c))).lookup i = some c := by
  induction l with
  | nil => simp at h
  | cons a t ih =>
    simp only [List.map_cons, List.mem_cons] at h
    by_cases hik : i = a.1
    · simp [List.lookup_cons, hik]
    · simp only [List.map_cons, List.lookup_cons]
      rw [show (i == a.1) = false from by simpa using hik]
      exact ih (h.resolve_left hik)

lemma lookup_map_const_none {l : List (ℕ × α)} {i : ℕ}
    (h : i ∉ l.map Prod.fst) (c : ℚ) :
    (l.map (fun r => (r.1, c))).lookup i = none := by
  induction l with
  | nil => rfl
  | cons a t ih =>
    simp only [List.map_cons, List.mem_cons, not_or] at h
    simp only [List.map_cons, List.lookup_cons]
    rw [show (i == a.1) = false from by simpa using h.1]
    exact ih h.2

/-- Closed form of the rank-assignment loop: on a value-sorted pair list
with distinct indices, the rank stored for index `i` carrying value `v`
is the averaged rank of `v`'s tied block, expressed through the counts of
strictly smaller and of equal values. -/
lemma assignRanks_lookup :
    ∀ (sp : List (ℕ × α)) (p : ℕ),
      sp.Sorted (fun a b : ℕ × α => a.2 ≤ b.2) →
      (sp.map Prod.fst).Nodup →
      ∀ (i : ℕ) (v : α), (i, v) ∈ sp →
      (assignRanks p sp).lookup i
        = some (((2 * (p + sp.countP (fun r => decide (r.2 < v)))
            + sp.countP (fun r => decide (r.2 = v)) - 1 : ℕ) : ℚ) / 2 + 1)
  | [], _, _, _, i, v, hmem => absurd hmem (List.not_mem_nil _)
  | q :: rest, p, hsort, hnd, i, v, hmem => by
    have hpair := List.pairwise_cons.1 hsort
    rw [assignRanks_cons, List.lookup_append]
    set pred := fun r : ℕ × α => decide (r.2 = q.2) with hpred
    set run := q :: rest.takeWhile pred with hrun
    set rest' := rest.dropWhile pred with hrest'
    have hdecomp : run ++ rest' = q :: rest := by
      rw [hrun, hrest', List.cons_append, List.takeWhile_append_dropWhile]
    have hrunval : ∀ x ∈ run, x.2 = q.2 := by
      intro x hx
      rcases List.mem_cons.1 hx with rfl | hx'
      · rfl
      · have hpx := List.mem_takeWhile_imp hx'
        simp only [hpred] at hpx
        exact of_decide_eq_true hpx
    have hgt : ∀ x ∈ rest', q.2 < x.2 :=
      dropWhile_strict_of_sorted rest q.2 hpair.2 hpair.1
    have hm1 : 1 ≤ run.length := by
      rw [hrun]
      simp
    have hcount : ∀ f : ℕ × α → Bool,
        (q :: rest).countP f = run.countP f + rest'.countP f := by
      intro f
      rw [← hdecomp, List.countP_append]
    rw [← hdecomp] at hmem
    rcases List.mem_append.1 hmem with hin | hin
    · have hv : v = q.2 := hrunval (i, v) hin
      subst hv
      have hclt : (q :: rest).countP (fun r => decide (r.2 < q.2)) = 0 := by
        rw [hcount]
        have h1 : run.countP (fun r => decide (r.2 < q.2)) = 0 :=
          List.countP_eq_zero.2 (fun x hx => by simp [hrunval x hx])
        have h2 : rest'.countP (fun r => decide (r.2 < q.2)) = 0 :=
          List.countP_eq_zero.2 (fun x hx => by simp [not_lt.2 (le_of_lt (hgt x hx))])
        omega
      have hceq : (q :: rest).countP (fun r => decide (r.2 = q.2)) = run.length := by
        rw [hcount]
        have h1 : run.countP (fun r => decide (r.2 = q.2)) = run.length :=
          List.countP_eq_length.2 (fun x hx => by simp [hrunval x hx])
        have h2 : rest'.countP (fun r => decide (r.2 = q.2)) = 0 :=
          List.countP_eq_zero.2 (fun x hx => by simp [ne_of_gt (hgt x hx)])
        omega
      have hikey : i ∈ run.map Prod.fst := List.mem_map.2 ⟨(i, q.2), hin, rfl⟩
      rw [lookup_map_const hikey, Option.or_some, hclt, hceq,
        show p + (p + run.length - 1) = 2 * (p + 0) + run.length - 1 from by omega]
    · have hvgt : q.2 < v := hgt (i, v) hin
      have hsort' : rest'.Pairwise (fun a b : ℕ × α => a.2 ≤ b.2) :=
        hpair.2.sublist (List.dropWhile_sublist _)
      have hnd' : (rest'.map Prod.fst).Nodup := by
        have hsub : (rest'.map Prod.fst).Sublist ((q :: rest).map Prod.fst) :=
          ((List.dropWhile_sublist _).trans (List.sublist_cons_self q rest)).map Prod.fst
        exact hnd.sublist hsub
      have hikey : i ∉ run.map Prod.fst := by
        have hka : ((run ++ rest').map Prod.fst).Nodup := by
          rw [hdecomp]
          exact hnd
        rw [List.map_append] at hka
        intro hmem'
        exact (List.nodup_append.1 hka).2.2 hmem' (List.mem_map.2 ⟨(i, v), hin, rfl⟩)
      rw [lookup_map_const_none hikey, Option.none_or,
        assignRanks_lookup rest' (p + run.length) hsort' hnd' i v hin]
      have h1 : run.countP (fun r => decide (r.2 < v)) = run.length :=
        List.countP_eq_length.2 (fun x hx => by simp [hrunval x hx, hvgt])
      have h2 : run.countP (fun r => decide (r.2 = v)) = 0 :=
        List.countP_eq_zero.2 (fun x hx => by
          simp only [hrunval x hx, decide_eq_true_eq]
          exact ne_of_lt hvgt)
      have hclt : (q :: rest).countP (fun r => decide (r.2 < v))
          = run.length + rest'.countP (fun r => decide (r.2 < v)) := by
        rw [hcount, h1]
      have hceq : (q :: rest).countP (fun r => decide (r.2 = v))
          = rest'.countP (fun r => decide (r.2 = v)) := by
        rw [hcount, h2]
        omega
      rw [hclt, hceq,
        show 2 * (p + run.length + rest'.countP (fun r => decide (r.2 < v)))
            = 2 * (p + (run.length + rest'.countP (fun r => decide (r.2 < v))))
          from by omega]
termination_by sp _ _ _ _ _ _ => sp.length
decreasing_by
  simp only [List.length_cons, hrest']
  exact Nat.lt_succ_of_le ((List.dropWhile_sublist _).length_le)

lemma countP_le_split (v : α) : ∀ l : List α,
    l.countP (fun u => decide (u ≤ v))
      = l.countP (fun u => decide (u < v)) + l.countP (fun u => decide (u = v))
  | [] => rfl
  | a :: t => by
    simp only [List.countP_cons]
    rw [countP_le_split v t]
    rcases lt_trichotomy a v with h | h | h
    · simp [h, le_of_lt h, ne_of_lt h]
      omega
    · subst h
      simp [lt_irrefl]
      omega
    · simp [not_le.2 h, ne_of_gt h, not_lt.2 (le_of_lt h)]

lemma snd_countP_lt (vals : List α) (v : α) :
    (sortedPairs vals).countP (fun r => decide (r.2 < v))
      = vals.countP (fun u => decide (u < v)) := by
  have h := (sortedPairs_snd_perm vals).countP_eq (fun u => decide (u < v))
  rw [List.countP_map] at h
  exact h

lemma snd_countP_eqv (vals : List α) (v : α) :
    (sortedPairs vals).countP (fun r => decide (r.2 = v))
      = vals.countP (fun u => decide (u = v)) := by
  have h := (sortedPairs_snd_perm vals).countP_eq (fun u => decide (u = v))
  rw [List.countP_map] at h
  exact h

lemma rankList_getD_eq (vals : List α) (i : ℕ) (hi : i < vals.length) :
    (rankList vals).getD i 0
      = ((vals.countP (fun u => decide (u < vals[i])) + 1
          + vals.countP (fun u => decide (u ≤ vals[i])) : ℕ) : ℚ) / 2 := by
  have hmem_enum : (i, vals[i]) ∈ vals.enum := by
    have hlen : i < vals.enum.length := by simpa [List.enum_length] using hi
    have hg : vals.enum[i] = (i, vals[i]) := by
      simp [List.enum_eq_enumFrom]
    rw [← hg]
    exact List.getElem_mem hlen
  have hmem : (i, vals[i]) ∈ sortedPairs vals :=
    (sortedPairs_perm vals).mem_iff.2 hmem_enum
  have hlk := assignRanks_lookup (sortedPairs vals) 0 (sortedPairs_sorted vals)
    (sortedPairs_nodup_fst vals) i vals[i] hmem
  unfold rankList
  rw [List.getD_eq_getElem?_getD, List.getElem?_map, List.getElem?_range hi]
  simp only [Option.map_some', Option.getD_some]
  rw [hlk]
  simp only [Option.getD_some]
  rw [snd_countP_lt vals vals[i], snd_countP_eqv vals vals[i],
    countP_le_split vals[i] vals]
  have hpos : 1 ≤ vals.countP (fun u => decide (u = vals[i])) := by
    have h : 0 < vals.countP (fun u => decide (u = vals[i])) :=
      List.countP_pos_iff.2 ⟨vals[i], List.getElem_mem hi, decide_eq_true rfl⟩
    omega
  have hle : 1 ≤ 2 * (0 + vals.countP (fun u => decide (u < vals[i])))
      + vals.countP (fun u => decide (u = vals[i])) := by omega
  rw [Nat.cast_sub hle]
  push_cast
  ring

lemma sum_range_shift (m p : ℕ) :
    ((List.range m).map (fun k => ((p + k + 1 : ℕ) : ℚ))).sum
      = m * p + m * (m + 1) / 2 := by
  induction m with
  | zero => simp
  | succ n ih =>
    rw [List.range_succ, List.map_append, List.sum_append, ih]
    push_cast
    simp only [List.map_cons, List.map_nil, List.sum_cons, List.sum_nil]
    push_cast
    ring

lemma sum_range_shift_sq (m p : ℕ) :
    ((List.range m).map (fun k => ((p + k + 1 : ℕ) : ℚ) ^ 2)).sum
      = m * p ^ 2 + p * m * (m + 1) + m * (m + 1) * (2 * m + 1) / 6 := by
  induction m with
  | zero => simp
  | succ n ih =>
    rw [List.range_succ, List.map_append, List.sum_append, ih]
    simp only [List.map_cons, List.map_nil, List.sum_cons, List.sum_nil]
    push_cast
    ring

lemma sum_range_split (g : ℕ → ℚ) (m n : ℕ) :
    ((List.range (m + n)).map g).sum
      = ((List.range m).map g).sum + ((List.range n).map (fun k => g (m + k))).sum := by
  rw [List.range_add, List.map_append, List.sum_append, List.map_map]
  rfl

lemma assignRanks_keys : ∀ (p : ℕ) (sp : List (ℕ × α)),
    (assignRanks p sp).map Prod.fst = sp.map Prod.fst
  | _, [] => by rw [assignRanks]; rfl
  | p, q :: rest => by
    rw [assignRanks_cons, List.map_append,
      assignRanks_keys _ (rest.dropWhile (fun r => decide (r.2 = q.2))), List.map_map]
    conv_rhs => rw [show q :: rest
      = (q :: rest.takeWhile (fun r => decide (r.2 = q.2)))
        ++ rest.dropWhile (fun r => decide (r.2 = q.2)) from by
        rw [List.cons_append, List.takeWhile_append_dropWhile]]
    rw [List.map_append]
    rfl
termination_by p sp => sp.length
decreasing_by
  simp only [List.length_cons]
  exact Nat.lt_succ_of_le ((List.dropWhile_sublist _).length_le)

lemma assignRanks_length (p : ℕ) (sp : List (ℕ × α)) :
    (assignRanks p sp).length = sp.length := by
  have h := congrArg List.length (assignRanks_keys p sp)
  simpa using h

lemma assignRanks_snd_sum : ∀ (p : ℕ) (sp : List (ℕ × α)),
    ((assignRanks p sp).map Prod.snd).sum
      = ((List.range sp.length).map (fun k => ((p + k + 1 : ℕ) : ℚ))).sum
  | p, [] => by rw [assignRanks]; rfl
  | p, q :: rest => by
    have hdecomp : (q :: rest.takeWhile (fun r => decide (r.2 = q.2)))
        ++ rest.dropWhile (fun r => decide (r.2 = q.2)) = q :: rest := by
      rw [List.cons_append, List.takeWhile_append_dropWhile]
    have hlen : (q :: rest).length
        = (q :: rest.takeWhile (fun r => decide (r.2 = q.2))).length
          + (rest.dropWhile (fun r => decide (r.2 = q.2))).length := by
      rw [← hdecomp, List.length_append]
    rw [assignRanks_cons, List.map_append, List.sum_append,
      assignRanks_snd_sum _ (rest.dropWhile (fun r => decide (r.2 = q.2))),
      List.map_map, hlen, sum_range_split]
    congr 1
    · rw [show (Prod.snd ∘ fun r : ℕ × α =>
          (r.1, (((p + (p + (q :: rest.takeWhile (fun r => decide (r.2 = q.2))).length - 1) : ℕ) : ℚ)) / 2 + 1))
          = fun _ => (((p + (p + (q :: rest.takeWhile (fun r => decide (r.2 = q.2))).length - 1) : ℕ) : ℚ)) / 2 + 1
          from rfl, List.map_const', List.sum_replicate, sum_range_shift]
      set m := (q :: rest.takeWhile (fun r => decide (r.2 = q.2))).length with hm
      have hm1 : 1 ≤ m := by rw [hm]; simp
      rw [show (p + (p + m - 1) : ℕ) = 2 * p + m - 1 from by omega,
        Nat.cast_sub (by omega : 1 ≤ 2 * p + m)]
      push_cast
      rw [nsmul_eq_mul]
      ring
    · refine congrArg List.sum (List.map_congr_left ?_)
      intro k _
      congr 1
      omega
termination_by p sp => sp.length
decreasing_by
  simp only [List.length_cons]
  exact Nat.lt_succ_of_le ((List.dropWhile_sublist _).length_le)

lemma assignRanks_sq_sum : ∀ (p : ℕ) (sp : List (ℕ × α)),
    ((assignRanks p sp).map (fun r => r.2 ^ 2)).sum
      ≤ ((List.range sp.length).map (fun k => ((p + k + 1 : ℕ) : ℚ) ^ 2)).sum
  | p, [] => by rw [assignRanks]; simp
  | p, q :: rest => by
    have hdecomp : (q :: rest.takeWhile (fun r => decide (r.2 = q.2)))
        ++ rest.dropWhile (fun r => decide (r.2 = q.2)) = q :: rest := by
      rw [List.cons_append, List.takeWhile_append_dropWhile]
    have hlen : (q :: rest).length
        = (q :: rest.takeWhile (fun r => decide (r.2 = q.2))).length
          + (rest.dropWhile (fun r => decide (r.2 = q.2))).length := by
      rw [← hdecomp, List.length_append]
    rw [assignRanks_cons, List.map_append, List.sum_append, List.map_map,
      hlen, sum_range_split]
    apply add_le_add
    · rw [show ((fun r : ℕ × ℚ => r.2 ^ 2) ∘ fun r : ℕ × α =>
          (r.1, (((p + (p + (q :: rest.takeWhile (fun r => decide (r.2 = q.2))).length - 1) : ℕ) : ℚ)) / 2 + 1))
          = fun _ : ℕ × α => ((((p + (p + (q :: rest.takeWhile (fun r => decide (r.2 = q.2))).length - 1) : ℕ) : ℚ)) / 2 + 1) ^ 2
          from rfl, List.map_const', List.sum_replicate, sum_range_shift_sq]
      set m := (q :: rest.takeWhile (fun r => decide (r.2 = q.2))).length with hm
      have hm1 : 1 ≤ m := by rw [hm]; simp
      rw [show (p + (p + m - 1) : ℕ) = 2 * p + m - 1 from by omega,
        Nat.cast_sub (by omega : 1 ≤ 2 * p + m)]
      have hmq : (1:ℚ) ≤ (m:ℚ) := by exact_mod_cast hm1
      push_cast
      rw [nsmul_eq_mul]
      nlinarith [sq_nonneg ((m:ℚ) - 1), sq_nonneg ((m:ℚ) + 1), hmq]
    · have hrec := assignRanks_sq_sum
        (p + (q :: rest.takeWhile (fun r => decide (r.2 = q.2))).length)
        (rest.dropWhile (fun r => decide (r.2 = q.2)))
      have halign : ((List.range (rest.dropWhile (fun r => decide (r.2 = q.2))).length).map
          (fun k => (((p + (q :: rest.takeWhile (fun r => decide (r.2 = q.2))).length) + k + 1 : ℕ) : ℚ) ^ 2)).sum
          = ((List.range (rest.dropWhile (fun r => decide (r.2 = q.2))).length).map
          (fun k => ((p + ((q :: rest.takeWhile (fun r => decide (r.2 = q.2))).length + k) + 1 : ℕ) : ℚ) ^ 2)).sum := by
        refine congrArg List.sum (List.map_congr_left ?_)
        intro k _
        congr 2
        omega
      exact le_of_le_of_eq hrec halign
termination_by p sp => sp.length
decreasing_by
  simp only [List.length_cons]
  exact Nat.lt_succ_of_le ((List.dropWhile_sublist _).length_le)

lemma lookup_perm_values {β : Type*} :
    ∀ (l : List (ℕ × β)) (L : List ℕ) (d : β),
      (l.map Prod.fst).Nodup → L.Perm (l.map Prod.fst) →
      (L.map (fun i => ((l.lookup i).getD d))).Perm (l.map Prod.snd)
  | [], L, d, _, hperm => by
    have hL : L = [] := List.perm_nil.1 (by simpa using hperm)
    subst hL
    simp
  | (k, v) :: t, L, d, hnd, hperm => by
    simp only [List.map_cons] at hperm hnd
    have hkL : k ∈ L := hperm.mem_iff.2 (List.mem_cons_self _ _)
    have hLL : L.Perm (k :: L.erase k) := List.perm_cons_erase hkL
    have hLer : (L.erase k).Perm (t.map Prod.fst) :=
      (hLL.symm.trans hperm).cons_inv
    have hLnd : L.Nodup := hperm.nodup_iff.2 hnd
    have hmap : (L.map (fun i => ((((k, v) :: t).lookup i).getD d))).Perm
        ((k :: L.erase k).map (fun i => ((((k, v) :: t).lookup i).getD d))) :=
      hLL.map _
    refine hmap.trans ?_
    rw [List.map_cons]
    have hheadv : ((((k, v) :: t).lookup k).getD d) = v := by simp
    rw [hheadv]
    have htail : (L.erase k).map (fun i => ((((k, v) :: t).lookup i).getD d))
        = (L.erase k).map (fun i => ((t.lookup i).getD d)) := by
      refine List.map_congr_left ?_
      intro i hi
      have hik : i ≠ k := ((List.Nodup.mem_erase_iff hLnd).1 hi).1
      have hl : ((k, v) :: t).lookup i = t.lookup i := by
        simp only [List.lookup_cons]
        rw [show (i == k) = false from by simpa using hik]
      rw [hl]
    rw [htail]
    exact (lookup_perm_values t (L.erase k) d (List.nodup_cons.1 hnd).2 hLer).cons v

lemma rankList_perm_assigned (vals : List α) :
    (rankList vals).Perm ((assignRanks 0 (sortedPairs vals)).map Prod.snd) := by
  unfold rankList
  have hkeys : (assignRanks 0 (sortedPairs vals)).map Prod.fst
      = (sortedPairs vals).map Prod.fst := assignRanks_keys 0 _
  have hnd : ((assignRanks 0 (sortedPairs vals)).map Prod.fst).Nodup := by
    rw [hkeys]
    exact sortedPairs_nodup_fst vals
  have hperm : (List.range vals.length).Perm
      ((assignRanks 0 (sortedPairs vals)).map Prod.fst) := by
    rw [hkeys]
    exact (sortedPairs_map_fst_perm vals).symm
  exact lookup_perm_values _ _ _ hnd hperm

lemma rankList_sum (vals : List α) :
    (rankList vals).sum = (vals.length : ℚ) * (vals.length + 1) / 2 := by
  rw [(rankList_perm_assigned vals).sum_eq, assignRanks_snd_sum, sortedPairs_length,
    sum_range_shift]
  push_cast
  ring

lemma rankList_sq_sum (vals : List α) :
    ((rankList vals).map (fun t => t ^ 2)).sum
      ≤ (vals.length : ℚ) * (vals.length + 1) * (2 * vals.length + 1) / 6 := by
  have hperm := ((rankList_perm_assigned vals).map (fun t : ℚ => t ^ 2)).sum_eq
  rw [hperm]
  have h1 : ((assignRanks 0 (sortedPairs vals)).map Prod.snd).map (fun t : ℚ => t ^ 2)
      = (assignRanks 0 (sortedPairs vals)).map (fun r => r.2 ^ 2) := by
    rw [List.map_map]
    rfl
  rw [h1]
  have h2 := assignRanks_sq_sum 0 (sortedPairs vals)
  rw [sortedPairs_length, sum_range_shift_sq] at h2
  refine le_trans h2 (le_of_eq ?_)
  push_cast
  ring

lemma sum_map_add (l : List ℕ) (f g : ℕ → ℚ) :
    (l.map (fun i => f i + g i)).sum = (l.map f).sum + (l.map g).sum := by
  induction l with
  | nil => simp
  | cons a t ih =>
    simp only [List.map_cons, List.sum_cons, ih]
    ring

lemma sum_map_two_mul (l : List ℕ) (f : ℕ → ℚ) :
    (l.map (fun i => 2 * f i)).sum = 2 * (l.map f).sum := by
  induction l with
  | nil => simp
  | cons a t ih =>
    simp only [List.map_cons, List.sum_cons, ih]
    ring

lemma sum_sq_sub (l : List ℕ) (f : ℕ → ℚ) (c : ℚ) :
    (l.map (fun i => (f i - c) ^ 2)).sum
      = (l.map (fun i => f i ^ 2)).sum - 2 * c * (l.map f).sum + l.length * c ^ 2 := by
  induction l with
  | nil => simp
  | cons a t ih =>
    simp only [List.map_cons, List.sum_cons, ih, List.length_cons]
    push_cast
    ring

lemma map_range_getD (l : List ℚ) :
    (List.range l.length).map (fun i => l.getD i 0) = l := by
  apply List.ext_getElem
  · simp
  · intro i h1 h2
    simp only [List.getElem_map, List.getElem_range]
    rw [List.getD_eq_getElem?_getD, List.getElem?_eq_getElem h2]
    rfl

lemma rankList_length (vals : List α) : (rankList vals).length = vals.length := by
  unfold rankList
  simp

lemma spearman_dsq_le (x y : List α) (hxy : x.length = y.length) :
    ((List.range x.length).map
      (fun i => ((rankList x).getD i 0 - (rankList y).getD i 0) ^ 2)).sum
      ≤ (x.length : ℚ) * ((x.length : ℚ) * (x.length : ℚ) - 1) / 3 := by
  set μ : ℚ := ((x.length : ℚ) + 1) / 2 with hμ
  have hrx : (List.range x.length).map (fun i => (rankList x).getD i 0) = rankList x := by
    rw [show x.length = (rankList x).length from (rankList_length x).symm]
    exact map_range_getD _
  have hry : (List.range x.length).map (fun i => (rankList y).getD i 0) = rankList y := by
    rw [hxy, show y.length = (rankList y).length from (rankList_length y).symm]
    exact map_range_getD _
  have hrx2 : (List.range x.length).map (fun i => ((rankList x).getD i 0) ^ 2)
      = (rankList x).map (fun t => t ^ 2) := by
    rw [show (fun i => ((rankList x).getD i 0) ^ 2)
        = (fun t : ℚ => t ^ 2) ∘ (fun i => (rankList x).getD i 0) from rfl,
      ← List.map_map, hrx]
  have hry2 : (List.range x.length).map (fun i => ((rankList y).getD i 0) ^ 2)
      = (rankList y).map (fun t => t ^ 2) := by
    rw [show (fun i => ((rankList y).getD i 0) ^ 2)
        = (fun t : ℚ => t ^ 2) ∘ (fun i => (rankList y).getD i 0) from rfl,
      ← List.map_map, hry]
  have hpt : ∀ i ∈ List.range x.length,
      ((rankList x).getD i 0 - (rankList y).getD i 0) ^ 2
        ≤ 2 * ((rankList x).getD i 0 - μ) ^ 2 + 2 * ((rankList y).getD i 0 - μ) ^ 2 := by
    intro i _
    nlinarith [sq_nonneg ((rankList x).getD i 0 + (rankList y).getD i 0 - 2 * μ)]
  have h1 := List.sum_le_sum hpt
  have h2 : ((List.range x.length).map (fun i =>
      2 * ((rankList x).getD i 0 - μ) ^ 2 + 2 * ((rankList y).getD i 0 - μ) ^ 2)).sum
      = 2 * ((List.range x.length).map (fun i => ((rankList x).getD i 0 - μ) ^ 2)).sum
        + 2 * ((List.range x.length).map (fun i => ((rankList y).getD i 0 - μ) ^ 2)).sum := by
    rw [sum_map_add (List.range x.length)
      (fun i => 2 * ((rankList x).getD i 0 - μ) ^ 2)
      (fun i => 2 * ((rankList y).getD i 0 - μ) ^ 2),
      sum_map_two_mul, sum_map_two_mul]
  have hcx : ((List.range x.length).map (fun i => ((rankList x).getD i 0 - μ) ^ 2)).sum
      ≤ (x.length : ℚ) * ((x.length : ℚ) * (x.length : ℚ) - 1) / 12 := by
    have hs := sum_sq_sub (List.range x.length) (fun i => (rankList x).getD i 0) μ
    rw [hrx2, hrx, List.length_range, rankList_sum] at hs
    rw [hs, hμ]
    nlinarith [rankList_sq_sum x]
  have hcy : ((List.range x.length).map (fun i => ((rankList y).getD i 0 - μ) ^ 2)).sum
      ≤ (x.length : ℚ) * ((x.length : ℚ) * (x.length : ℚ) - 1) / 12 := by
    have hs := sum_sq_sub (List.range x.length) (fun i => (rankList y).getD i 0) μ
    rw [hry2, hry, List.length_range, rankList_sum] at hs
    rw [hs, hμ, ← hxy]
    have h3 := rankList_sq_sum y
    rw [← hxy] at h3
    nlinarith [h3]
  calc ((List.range x.length).map
      (fun i => ((rankList x).getD i 0 - (rankList y).getD i 0) ^ 2)).sum
      ≤ _ := h1
    _ = _ := h2
    _ ≤ (x.length : ℚ) * ((x.length : ℚ) * (x.length : ℚ) - 1) / 3 := by linarith

end Spearman

/-- Modelled from the spec's words (§4.1): ranks are assigned by ascending
value and "equal values receive the mean of the ranks their tied block
would occupy".  With `c_lt` values strictly below `vals[i]` and `c_le`
values at most `vals[i]`, the tied block occupies ranks
`c_lt + 1 .. c_le`, whose mean is `(c_lt + 1 + c_le) / 2`. -/
def specAvgRank (vals : List ℚ) (i : ℕ) : ℚ :=
  ((vals.countP (fun u => decide (u < vals.getD i 0)) + 1
    + vals.countP (fun u => decide (u ≤ vals.getD i 0)) : ℕ) : ℚ) / 2

/-- C8: for equal-length numeric sequences `spearman_rank_correlation`
returns a single number in `[-1, 1]`; sequences shorter than 2 yield `0`
instead of failing; ranks are the spec's tie-averaged ranks; and the
result is computed by the formula `1 - 6*d_sq/(n*(n*n-1))` over those
ranks. -/
theorem spearman_rank_correlation_props :
    (∀ x y : List ℚ, x.length = y.length →
        -1 ≤ spearman_rank_correlation x y ∧ spearman_rank_correlation x y ≤ 1)
    ∧ (∀ x y : List ℚ, x.length < 2 → spearman_rank_correlation x y = 0)
    ∧ (∀ (x : List ℚ) (i : ℕ), i < x.length →
        (rankList x).getD i 0 = specAvgRank x i)
    ∧ (∀ x y : List ℚ, 2 ≤ x.length →
        spearman_rank_correlation x y
          = 1 - 6 * (((List.range x.length).map
              (fun i => ((rankList x).getD i 0 - (rankList y).getD i 0) ^ 2)).sum)
            / ((x.length : ℚ) * ((x.length : ℚ) * (x.length : ℚ) - 1))) := by
  have hform : ∀ x y : List ℚ, ¬ x.length < 2 →
      spearman_rank_correlation x y
        = 1 - 6 * (((List.range x.length).map
            (fun i => ((rankList x).getD i 0 - (rankList y).getD i 0) ^ 2)).sum)
          / ((x.length : ℚ) * ((x.length : ℚ) * (x.length : ℚ) - 1)) := by
    intro x y h2
    simp only [spearman_rank_correlation]
    rw [if_neg h2]
  refine ⟨?_, ?_, ?_, fun x y h => hform x y (not_lt.2 h)⟩
  · intro x y hxy
    by_cases h2 : x.length < 2
    · simp only [spearman_rank_correlation]
      rw [if_pos h2]
      norm_num
    · rw [hform x y h2]
      have hn : 2 ≤ x.length := not_lt.1 h2
      have hnq : (2:ℚ) ≤ (x.length : ℚ) := by exact_mod_cast hn
      have hD : 0 < (x.length : ℚ) * ((x.length : ℚ) * (x.length : ℚ) - 1) := by
        nlinarith
      have hdsq0 : 0 ≤ ((List.range x.length).map
          (fun i => ((rankList x).getD i 0 - (rankList y).getD i 0) ^ 2)).sum := by
        apply List.sum_nonneg
        intro z hz
        obtain ⟨i, _, rfl⟩ := List.mem_map.1 hz
        positivity
      have hdsq := spearman_dsq_le x y hxy
      constructor
      · have h6 : 6 * ((List.range x.length).map
            (fun i => ((rankList x).getD i 0 - (rankList y).getD i 0) ^ 2)).sum
            / ((x.length : ℚ) * ((x.length : ℚ) * (x.length : ℚ) - 1)) ≤ 2 := by
          rw [div_le_iff hD]
          linarith
        linarith
      · have h0 : 0 ≤ 6 * ((List.range x.length).map
            (fun i => ((rankList x).getD i 0 - (rankList y).getD i 0) ^ 2)).sum
            / ((x.length : ℚ) * ((x.length : ℚ) * (x.length : ℚ) - 1)) := by
          positivity
        linarith
  · intro x y h2
    simp only [spearman_rank_correlation]
    rw [if_pos h2]
  · intro x i hi
    rw [rankList_getD_eq x i hi]
    unfold specAvgRank
    have hg : x.getD i 0 = x[i] := by
      rw [List.getD_eq_getElem?_getD, List.getElem?_eq_getElem hi]
      rfl
    rw [hg]

/-- Witness for `spearman_rank_correlation_props` on concrete inputs. -/
theorem spearman_rank_correlation_props_witness :
    (-1 ≤ spearman_rank_correlation [(1:ℚ), 2] [2, 1]
      ∧ spearman_rank_correlation [(1:ℚ), 2] [2, 1] ≤ 1)
    ∧ spearman_rank_correlation [(5:ℚ)] ([] : List ℚ) = 0
    ∧ (rankList [(3:ℚ), 3, 7]).getD 0 0 = specAvgRank [(3:ℚ), 3, 7] 0 :=
  ⟨spearman_rank_correlation_props.1 [(1:ℚ), 2] [2, 1] rfl,
    spearman_rank_correlation_props.2.1 [(5:ℚ)] [] (by norm_num),
    spearman_rank_correlation_props.2.2.1 [(3:ℚ), 3, 7] 0 (by norm_num)⟩

example : (rankList [(3:ℚ), 3, 7]).getD 0 0 = 3 / 2 := by
  rw [rankList_getD_eq [(3:ℚ), 3, 7] 0 (by norm_num)]
  have h1 : List.countP (fun u => decide (u < [(3:ℚ), 3, 7][0])) [(3:ℚ), 3, 7] = 0 := by
    decide
  have h2 : List.countP (fun u => decide (u ≤ [(3:ℚ), 3, 7][0])) [(3:ℚ), 3, 7] = 2 := by
    decide
  rw [h1, h2]
  norm_num
